import Mathlib

/-!
Shallow embedding of the bep-analyzer event-ingestion core:

* `StaticBepAnalyzer.processEvent` (src/unnamed/part_004) — the incremental
  build-state accumulator,
* `LiveBepAnalyzer.processEvent` and `parseProgress` (src/src/live-analyzer.ts),
* `StaticBepAnalyzer.resolveFileSet` (src/unnamed/part_004) — the named-set
  graph resolver,
* the stream simulator `getEventTimestamp` / `simulateBepStream`
  (src/unnamed/part_011, the protobuf-capable variant).

JavaScript-specific semantics that the source relies on are modelled
explicitly: `Map` insertion-order/overwrite semantics as association lists,
string falsiness (the empty string is falsy), `Array.prototype.sort` as a
stable sort, and the concrete regexes of the source as executable
backtracking matchers over character lists.
-/

set_option maxRecDepth 10000

namespace Bep

/-! ## JavaScript Map semantics over association lists -/

/-- JS `Map.get`: first binding for the key (insertion order keeps one binding
per key, so first = the binding). -/
def mapGet {α : Type} (m : List (String × α)) (k : String) : Option α :=
  match m with
  | [] => none
  | (k', v) :: rest => if k' = k then some v else mapGet rest k

/-- JS `Map.has`. -/
def mapHas {α : Type} (m : List (String × α)) (k : String) : Bool :=
  (mapGet m k).isSome

/-- JS `Map.set`: overwrite in place if the key is present (keeping its
position), otherwise append. -/
def mapSet {α : Type} (m : List (String × α)) (k : String) (v : α) :
    List (String × α) :=
  match m with
  | [] => [(k, v)]
  | (k', v') :: rest =>
      if k' = k then (k, v) :: rest else (k', v') :: mapSet rest k v

/-- JS `Map.delete`: remove the binding for the key. -/
def mapDelete {α : Type} (m : List (String × α)) (k : String) :
    List (String × α) :=
  match m with
  | [] => []
  | (k', v') :: rest =>
      if k' = k then rest else (k', v') :: mapDelete rest k

/-! ## JS string helpers -/

/-- JS whitespace for `\s`, `trim` and friends (the ASCII part, which is all
the source data contains). -/
def isJsSpace (c : Char) : Bool :=
  c = ' ' || c = '\t' || c = '\n' || c = '\r' || c = '\x0b' || c = '\x0c'

/-- JS `String.prototype.trim` on a character list. -/
def jsTrimList (cs : List Char) : List Char :=
  ((cs.dropWhile isJsSpace).reverse.dropWhile isJsSpace).reverse

/-- JS `String.prototype.trim`. -/
def jsTrim (s : String) : String :=
  String.mk (jsTrimList s.data)

/-- ASCII lower-casing, as done by `toLowerCase` on the ASCII strings the
analyzer filters. -/
def asciiLower (c : Char) : Char :=
  if 'A' ≤ c && c ≤ 'Z' then Char.ofNat (c.toNat + 32) else c

/-- JS `toLowerCase` on a string (ASCII fragment). -/
def jsToLower (s : String) : String :=
  String.mk (s.data.map asciiLower)

/-- Substring occurrence test on character lists (JS `includes`). -/
def listHasSub (needle haystack : List Char) : Bool :=
  match haystack with
  | [] => needle.isEmpty
  | _ :: rest => needle.isPrefixOf haystack || listHasSub needle rest

/-- JS `String.prototype.includes`. -/
def jsIncludes (haystack needle : String) : Bool :=
  listHasSub needle.data haystack.data

/-- JS `String.prototype.startsWith`. -/
def jsStartsWith (s p : String) : Bool :=
  p.data.isPrefixOf s.data

/-- Split a character list at every occurrence of a literal separator,
scanning left to right (the semantics of JS `split` when the pattern has no
alternatives, as in the sources). The separator must be nonempty. -/
def splitSubAux (sep : List Char) (cs : List Char) (cur : List Char)
    (fuel : Nat) : List (List Char) :=
  match fuel with
  | 0 => [cur.reverse ++ cs]
  | fuel + 1 =>
      match cs with
      | [] => [cur.reverse]
      | c :: rest =>
          if sep.isPrefixOf cs && !sep.isEmpty then
            cur.reverse :: splitSubAux sep (cs.drop sep.length) [] fuel
          else
            splitSubAux sep rest (c :: cur) fuel

/-- Split a string on a literal separator, JS `split` style. -/
def splitSub (s sep : String) : List String :=
  (splitSubAux sep.data s.data [] s.data.length).map String.mk

/-- Split on any of a set of single characters (for JS `split(/[\\/]/)` and
`split("\n")`). -/
def splitChars (cs : List Char) (p : Char → Bool) : List (List Char) :=
  match cs with
  | [] => [[]]
  | c :: rest =>
      let r := splitChars rest p
      if p c then [] :: r
      else
        match r with
        | [] => [[c]]
        | h :: t => (c :: h) :: t

/-- Decimal value of a digit list. -/
def digitsToNat (ds : List Char) : Nat :=
  ds.foldl (fun n c => n * 10 + (c.toNat - '0'.toNat)) 0

/-- JS `parseInt(str, 10)`: skip leading whitespace, optional sign, then the
longest digit prefix; `none` models `NaN` (no digits found). -/
def jsParseIntList (cs : List Char) : Option Int :=
  let cs := cs.dropWhile isJsSpace
  let (sign, cs) :=
    match cs with
    | '-' :: rest => ((-1 : Int), rest)
    | '+' :: rest => ((1 : Int), rest)
    | _ => ((1 : Int), cs)
  let digits := cs.takeWhile (fun c => c.isDigit)
  if digits.isEmpty then none
  else some (sign * digitsToNat digits)

/-- JS `parseInt(str, 10)` on a string. -/
def jsParseInt (s : String) : Option Int :=
  jsParseIntList s.data

/-- JS `Array.prototype.findIndex` (here as an option instead of `-1`). -/
def jsFindIndex {α : Type} (p : α → Bool) : List α → Option Nat
  | [] => Option.none
  | a :: t => if p a then some 0 else (jsFindIndex p t).map (· + 1)

/-- JS truthiness of an optional string (`undefined` and `""` are falsy). -/
def strTruthy : Option String → Bool
  | none => false
  | some s => !s.isEmpty

/-- JS `a || b` on optional strings: keeps `a` when truthy, otherwise
yields `b` unchanged. -/
def jsOrStr (a b : Option String) : Option String :=
  if strTruthy a then a else b

/-! ## A small backtracking regex engine

The sources use a handful of concrete regexes.  Each is embedded as an
executable matcher over a character list.  A matcher takes the subject, a
start position and the captures recorded so far, and returns the list of
possible (end position, captures) outcomes in the engine's backtracking
preference order; the first full-sequence success is the JS match. -/

/-- Captured groups: (group index, start, stop) positions in the subject. -/
abbrev Caps := List (Nat × Nat × Nat)

/-- A matcher: subject, position, captures so far ↦ candidate outcomes in
preference order. -/
abbrev Matchr := List Char → Nat → Caps → List (Nat × Caps)

/-- Match the empty string. -/
def mEps : Matchr := fun _ p caps => [(p, caps)]

/-- Match one character of a class. -/
def mChar (pred : Char → Bool) : Matchr := fun cs p caps =>
  match cs.drop p with
  | c :: _ => if pred c then [(p + 1, caps)] else []
  | [] => []

/-- Sequencing, preserving backtracking order. -/
def mSeq (m1 m2 : Matchr) : Matchr := fun cs p caps =>
  (m1 cs p caps).flatMap (fun pc => m2 cs pc.1 pc.2)

/-- Alternation: the left branch is preferred. -/
def mAlt (m1 m2 : Matchr) : Matchr := fun cs p caps =>
  m1 cs p caps ++ m2 cs p caps

/-- Capture group `i` around a matcher. -/
def mCap (i : Nat) (m : Matchr) : Matchr := fun cs p caps =>
  (m cs p caps).map (fun pc => (pc.1, pc.2 ++ [(i, p, pc.1)]))

/-- Greedy `?`: prefer matching over skipping. -/
def mOpt (m : Matchr) : Matchr := fun cs p caps =>
  m cs p caps ++ [(p, caps)]

/-- End anchor `$`. -/
def mEnd : Matchr := fun cs p caps =>
  if p = cs.length then [(p, caps)] else []

/-- Length of the run of class characters starting at a position. -/
def runLen (cs : List Char) (p : Nat) (pred : Char → Bool) : Nat :=
  ((cs.drop p).takeWhile pred).length

/-- Greedy `*` over a character class: longest first. -/
def mStarChar (pred : Char → Bool) : Matchr := fun cs p caps =>
  ((List.range (runLen cs p pred + 1)).reverse).map (fun k => (p + k, caps))

/-- Greedy `+` over a character class: longest first, at least one. -/
def mPlusChar (pred : Char → Bool) : Matchr := fun cs p caps =>
  (((List.range (runLen cs p pred + 1)).reverse).filter (fun k => 1 ≤ k)).map
    (fun k => (p + k, caps))

/-- Greedy bounded repetition `{lo,hi}` over a character class. -/
def mRepChar (pred : Char → Bool) (lo hi : Nat) : Matchr := fun cs p caps =>
  let k := min (runLen cs p pred) hi
  (((List.range (k + 1)).reverse).filter (fun n => lo ≤ n)).map
    (fun n => (p + n, caps))

/-- Lazy `*` over a character class: shortest first. -/
def mLazyStarChar (pred : Char → Bool) : Matchr := fun cs p caps =>
  (List.range (runLen cs p pred + 1)).map (fun k => (p + k, caps))

/-- Lazy `+` over a character class: shortest first, at least one. -/
def mLazyPlusChar (pred : Char → Bool) : Matchr := fun cs p caps =>
  ((List.range (runLen cs p pred + 1)).filter (fun k => 1 ≤ k)).map
    (fun k => (p + k, caps))

/-- Greedy star over a compound matcher (progress-requiring, fuelled by the
remaining subject length): more iterations preferred. -/
def mStarAux (m : Matchr) (cs : List Char) : Nat → Nat → Caps →
    List (Nat × Caps)
  | 0, p, caps => [(p, caps)]
  | fuel + 1, p, caps =>
      (((m cs p caps).filter (fun pc => p < pc.1)).flatMap
        (fun pc => mStarAux m cs fuel pc.1 pc.2)) ++ [(p, caps)]

/-- Greedy `*` over a compound matcher. -/
def mStar (m : Matchr) : Matchr := fun cs p caps =>
  mStarAux m cs (cs.length + 1 - p) p caps

/-- Literal string matcher. -/
def mStr (s : List Char) : Matchr :=
  s.foldr (fun c acc => mSeq (mChar (fun x => x = c)) acc) mEps

/-- Anchored execution at a position: the first success in backtracking
order, as JS `RegExp.exec` with a `^`-anchored pattern. -/
def execAt (m : Matchr) (cs : List Char) (start : Nat) : Option (Nat × Caps) :=
  (m cs start []).head?

/-- Unanchored search: leftmost match wins (JS `match` / `exec` without
anchor). Returns (match start, match end, captures). -/
def searchAux (m : Matchr) (cs : List Char) : Nat → Nat →
    Option (Nat × Nat × Caps)
  | 0, _ => none
  | fuel + 1, start =>
      match execAt m cs start with
      | some (e, caps) => some (start, e, caps)
      | none =>
          if start < cs.length then searchAux m cs fuel (start + 1) else none

/-- Unanchored leftmost search from position 0. -/
def search (m : Matchr) (cs : List Char) : Option (Nat × Nat × Caps) :=
  searchAux m cs (cs.length + 1) 0

/-- Text of capture group `i`, `none` when the group did not participate
(JS `undefined`). -/
def capStr (cs : List Char) (caps : Caps) (i : Nat) : Option String :=
  (caps.find? (fun g => g.1 = i)).map
    (fun g => String.mk ((cs.drop g.2.1).take (g.2.2 - g.2.1)))

/-- Global regex replacement by the empty string (JS `replace(re, "")` with
the `g` flag): scan left to right, skipping each match. -/
def replaceAllAux (m : Matchr) (cs : List Char) : Nat → Nat → List Char
  | 0, p => cs.drop p
  | fuel + 1, p =>
      if p < cs.length then
        match execAt m cs p with
        | some (e, _) =>
            if p < e then replaceAllAux m cs fuel e
            else
              match cs.drop p with
              | c :: _ => c :: replaceAllAux m cs fuel (p + 1)
              | [] => []
        | none =>
            match cs.drop p with
            | c :: _ => c :: replaceAllAux m cs fuel (p + 1)
            | [] => []
      else []

/-- Remove every match of a matcher from the subject. -/
def replaceAllEmpty (m : Matchr) (cs : List Char) : List Char :=
  replaceAllAux m cs cs.length 0

/-! ## The concrete regexes of the sources -/

/-- Class `[\u001b\u009b]`. -/
def escClass (c : Char) : Bool := c = '\x1b' || c = '\x9b'

/-- Class `[[()#;?]`. -/
def ansiPunc (c : Char) : Bool :=
  c = '[' || c = '(' || c = ')' || c = '#' || c = ';' || c = '?'

/-- Class `[0-9A-ORZcf-nqry=><]` (the ANSI final byte). -/
def ansiFinal (c : Char) : Bool :=
  c.isDigit || ('A' ≤ c && c ≤ 'O') || c = 'R' || c = 'Z' || c = 'c' ||
    ('f' ≤ c && c ≤ 'n') || c = 'q' || c = 'r' || c = 'y' ||
    c = '=' || c = '>' || c = '<'

/-- The ANSI escape-sequence body
`[\u001b\u009b][[()#;?]*(?:[0-9]{1,4}(?:;[0-9]{0,4})*)?[0-9A-ORZcf-nqry=><]`. -/
def ansiBody : Matchr :=
  mSeq (mChar escClass)
    (mSeq (mStarChar ansiPunc)
      (mSeq
        (mOpt (mSeq (mRepChar Char.isDigit 1 4)
          (mStar (mSeq (mChar (fun c => c = ';')) (mRepChar Char.isDigit 0 4)))))
        (mChar ansiFinal)))

/-- live-analyzer.ts stripAnsi pattern: the ANSI body or a carriage
return (`...|\r`). -/
def stripAnsiLiveRe : Matchr :=
  mAlt ansiBody (mChar (fun c => c = '\r'))

/-- part_004 stripAnsi pattern: the ANSI body or the two-character
sequence backslash-r (the source writes `|\\r` inside a regex literal,
which matches a literal backslash followed by `r`, not a carriage
return). -/
def stripAnsiStaticRe : Matchr :=
  mAlt ansiBody (mStr ['\\', 'r'])

/-- `stripAnsi` of live-analyzer.ts. -/
def stripAnsiLive (s : String) : String :=
  String.mk (replaceAllEmpty stripAnsiLiveRe s.data)

/-- `stripAnsi` of part_004 (the static analyzer). -/
def stripAnsiStatic (s : String) : String :=
  String.mk (replaceAllEmpty stripAnsiStaticRe s.data)

/-- JS `\w`. -/
def isWordChar (c : Char) : Bool :=
  c.isAlpha || c.isDigit || c = '_'

/-- Dot class `.` (anything but a newline). -/
def dotClass (c : Char) : Bool := c ≠ '\n'

/-- Class `[\d,]`. -/
def digitComma (c : Char) : Bool := c.isDigit || c = ','

/-- Progress counter regex `^\[([\d,]+)\s*\/\s*([\d,]+)\]` of
parseProgress. -/
def progressCounterRe : Matchr :=
  mSeq (mChar (fun c => c = '['))
    (mSeq (mCap 1 (mPlusChar digitComma))
      (mSeq (mStarChar isJsSpace)
        (mSeq (mChar (fun c => c = '/'))
          (mSeq (mStarChar isJsSpace)
            (mSeq (mCap 2 (mPlusChar digitComma))
              (mChar (fun c => c = ']')))))))

/-- Keyword alternation of the current-label regex, in source order. -/
def labelKeyword : Matchr :=
  mAlt (mStr "Building".data)
    (mAlt (mStr "Compiling".data)
      (mAlt (mStr "Executing".data)
        (mAlt (mStr "Linking".data)
          (mAlt (mStr "Testing".data) (mStr "Action".data)))))

/-- Current-label regex
`\]\s+(?:Building|Compiling|Executing|Linking|Testing|Action)\s+(.+)` of
parseProgress (unanchored). -/
def labelRe : Matchr :=
  mSeq (mChar (fun c => c = ']'))
    (mSeq (mPlusChar isJsSpace)
      (mSeq labelKeyword
        (mSeq (mPlusChar isJsSpace)
          (mCap 1 (mPlusChar dotClass)))))

/-- Case-insensitive literal `s` (both regexes using it carry the `i`
flag). -/
def mCharS : Matchr := mChar (fun c => c = 's' || c = 'S')

/-- Running-action regex `^(\s*\w+\s+.+?);\s+(\d+s)` (flag `i`) of
parseProgress. -/
def runningActionRe : Matchr :=
  mSeq
    (mCap 1 (mSeq (mStarChar isJsSpace)
      (mSeq (mPlusChar isWordChar)
        (mSeq (mPlusChar isJsSpace) (mLazyPlusChar dotClass)))))
    (mSeq (mChar (fun c => c = ';'))
      (mSeq (mPlusChar isJsSpace)
        (mCap 2 (mSeq (mPlusChar Char.isDigit) mCharS))))

/-- Class `[a-zA-Z\s-]` of the strategy regex. -/
def stratClass (c : Char) : Bool :=
  c.isAlpha || isJsSpace c || c = '-'

/-- Strategy-extraction regex
`^(\s*\w+\s+.+?);.*?(?:(\d+s)\s+([a-zA-Z\s-]+\w))?$` (flag `i`) of
part_004's progress handling. -/
def strategyRe : Matchr :=
  mSeq
    (mCap 1 (mSeq (mStarChar isJsSpace)
      (mSeq (mPlusChar isWordChar)
        (mSeq (mPlusChar isJsSpace) (mLazyPlusChar dotClass)))))
    (mSeq (mChar (fun c => c = ';'))
      (mSeq (mLazyStarChar dotClass)
        (mSeq
          (mOpt (mSeq (mCap 2 (mSeq (mPlusChar Char.isDigit) mCharS))
            (mSeq (mPlusChar isJsSpace)
              (mCap 3 (mSeq (mPlusChar stratClass) (mChar isWordChar))))))
          mEnd)))

/-! ## Data model (types.ts, narrowed to the fields the analyzer reads)

Numeric-string fields that the code only ever feeds through `parseInt` or
`new Date(...).getTime()` are modelled as their parsed integer values;
record fields the accumulator stores without inspecting are carried as
opaque payload strings. -/

/-- A `{ uri }` file reference. -/
structure FileRef where
  uri : String
  deriving DecidableEq, Repr

/-- One file entry of a named set. -/
structure FileItem where
  name : String
  uri : String
  deriving DecidableEq, Repr

/-- A `{ id }` reference to another named set. -/
structure FileSetRef where
  id : String
  deriving DecidableEq, Repr

/-- NamedSetOfFiles: direct files plus references to other sets. -/
structure NamedSetOfFiles where
  files : Option (List FileItem)
  fileSets : Option (List FileSetRef)
  deriving DecidableEq, Repr

/-- One output group of a target-completed payload. -/
structure OutputGroup where
  fileSets : Option (List FileSetRef)
  deriving DecidableEq, Repr

/-- BuildStarted payload. -/
structure BuildStarted where
  command : String
  startTimeMillis : Int
  deriving DecidableEq, Repr

/-- BuildFinished payload. -/
structure BuildFinished where
  overallSuccess : Bool
  finishTimeMillis : Int
  deriving DecidableEq, Repr

/-- Execution info of an action result (stored as numeric strings by the
source, which writes `"0"` and computed differences into them). -/
structure ExecutionInfo where
  startTimeMillis : String
  wallTimeMillis : String
  deriving DecidableEq, Repr

/-- Action result wrapper. -/
structure ActionResult where
  executionInfo : ExecutionInfo
  deriving DecidableEq, Repr

/-- Problem payload. -/
structure Problem where
  message : String
  deriving DecidableEq, Repr

/-- Workspace status: key/value items, stored opaquely. -/
structure WorkspaceStatus where
  item : List (String × String)
  deriving DecidableEq, Repr

/-- Configuration payload (stored opaquely by the accumulator). -/
structure Configuration where
  mnemonic : String
  platformName : String
  cpu : String
  deriving DecidableEq, Repr

/-- OptionsParsed payload, opaque to the accumulator. -/
structure OptionsParsed where
  raw : String
  deriving DecidableEq, Repr

/-- StructuredCommandLine payload; only `commandLineLabel` is inspected. -/
structure StructuredCommandLine where
  commandLineLabel : Option String
  raw : String
  deriving DecidableEq, Repr

/-- BuildMetrics payload, opaque to the accumulator. -/
structure BuildMetrics where
  raw : String
  deriving DecidableEq, Repr

/-- BuildToolLogs payload, opaque to the accumulator. -/
structure BuildToolLogs where
  raw : String
  deriving DecidableEq, Repr

/-- One convenience symlink, opaque to the accumulator. -/
structure ConvenienceSymlink where
  raw : String
  deriving DecidableEq, Repr

/-- TestSummary payload; `label` is stamped from the event id on arrival. -/
structure TestSummary where
  label : Option String
  overallStatus : String
  totalRunCount : Int
  passed : List FileRef
  failed : List FileRef
  deriving DecidableEq, Repr

/-- Shape shared by the `data.completed` and `data.action` payloads (the code
casts either to `Action` and for target completion reads `success` and
`outputGroup` of the same slot).  `startTime`/`endTime` are date strings in
the source, used only through `new Date(...).getTime()`; they are carried
here as the parsed millisecond values. -/
structure CompletedData where
  success : Bool
  type : Option String
  mnemonic : Option String
  primaryOutput : Option FileRef
  startTime : Option Int
  endTime : Option Int
  actionResult : Option ActionResult
  commandLine : Option (List String)
  argv : Option (List String)
  stderr : Option FileRef
  outputGroup : Option (List OutputGroup)
  deriving DecidableEq, Repr

/-- The Action record the accumulator stores (the mutated completed
payload). -/
structure Action where
  success : Bool
  type : Option String
  mnemonic : Option String
  label : Option String
  primaryOutput : Option FileRef
  argv : Option (List String)
  actionResult : Option ActionResult
  strategy : Option String
  stderrContent : Option String
  startTime : Option Int
  endTime : Option Int
  deriving DecidableEq, Repr

/-- Progress payload: free-text console streams. -/
structure ProgressPayload where
  stderr : Option String
  stdout : Option String
  deriving DecidableEq, Repr

/-- Convenience-symlinks payload wrapper. -/
structure ConvSymPayload where
  convenienceSymlinks : Option (List ConvenienceSymlink)
  deriving DecidableEq, Repr

/-- One key of the event `id` object, with the payload the analyzer reads
from it.  A JS object's keys are ordered, and `Object.keys(id)[0]` picks the
first; the id is therefore a list of keys in insertion order. -/
inductive IdKey where
  | started
  | buildStarted
  | finished
  | buildFinished
  | progress
  | problem
  | actionCompleted (label : Option String) (primaryOutput : Option String)
  | testSummary (label : String)
  | targetCompleted (label : String) (configurationId : Option String)
  | pattern (patterns : Option (List String))
  | namedSet (setId : Option String)
  | workspaceStatus
  | optionsParsed
  | structuredCommandLine
  | convenienceSymlinksIdentified
  | configuration (configId : String)
  | buildMetrics
  | buildToolLogs
  | unknownKey (name : String)
  deriving DecidableEq, Repr

/-- Does a key satisfy `id.started`? -/
def IdKey.isStartedK : IdKey → Bool
  | .started => true
  | _ => false

/-- Does a key satisfy `id.buildStarted`? -/
def IdKey.isBuildStartedK : IdKey → Bool
  | .buildStarted => true
  | _ => false

/-- Does a key satisfy `id.finished`? -/
def IdKey.isFinishedK : IdKey → Bool
  | .finished => true
  | _ => false

/-- Does a key satisfy `id.buildFinished`? -/
def IdKey.isBuildFinishedK : IdKey → Bool
  | .buildFinished => true
  | _ => false

/-- Does a key satisfy `id.progress`? -/
def IdKey.isProgressK : IdKey → Bool
  | .progress => true
  | _ => false

/-- Does a key satisfy `id.problem`? -/
def IdKey.isProblemK : IdKey → Bool
  | .problem => true
  | _ => false

/-- Does a key satisfy `id.actionCompleted`? -/
def IdKey.isActionCompletedK : IdKey → Bool
  | .actionCompleted _ _ => true
  | _ => false

/-- One entry of `event.children`; the analyzer only reads
`child.actionCompleted?.label` (`none` covers a child without an
`actionCompleted` record or without a label). -/
structure BepChild where
  actionCompletedLabel : Option String
  deriving DecidableEq, Repr

/-- The data fields an event (or its `payload`) can carry. -/
structure BepData where
  started : Option BuildStarted
  finished : Option BuildFinished
  progress : Option ProgressPayload
  completed : Option CompletedData
  action : Option CompletedData
  summary : Option TestSummary
  problem : Option Problem
  workspaceStatus : Option WorkspaceStatus
  optionsParsed : Option OptionsParsed
  structuredCommandLine : Option StructuredCommandLine
  namedSetOfFiles : Option NamedSetOfFiles
  convenienceSymlinksIdentified : Option ConvSymPayload
  configuration : Option Configuration
  buildMetrics : Option BuildMetrics
  buildToolLogs : Option BuildToolLogs
  deriving DecidableEq, Repr

/-- A BepData record with every field absent. -/
def emptyData : BepData :=
  ⟨none, none, none, none, none, none, none, none, none, none, none, none,
    none, none, none⟩

/-- A decoded BEP event: id keys, children, optional `payload` wrapper and
the event's own top-level data fields (`event.payload || event`). -/
structure BepEvent where
  id : List IdKey
  children : Option (List BepChild)
  payload : Option BepData
  top : BepData
  deriving DecidableEq, Repr

/-- The `const data = event.payload || event` normalization. -/
def BepEvent.getData (e : BepEvent) : BepData :=
  e.payload.getD e.top

/-- The action-detail policy of the analyzer constructor. -/
inductive ActionDetails where
  | none
  | failed
  | all
  deriving DecidableEq, Repr

/-- The accumulated build state: the fields of StaticBepAnalyzer
(part_004), with the constructor configuration included. -/
structure BuildState where
  actionDetails : ActionDetails
  wideLevel : Nat
  buildStarted : Option BuildStarted
  buildFinished : Option BuildFinished
  buildMetrics : Option BuildMetrics
  buildToolLogs : Option BuildToolLogs
  actions : List Action
  testSummaries : List TestSummary
  problems : List Problem
  failedTargets : List (String × Option String)
  workspaceStatus : Option WorkspaceStatus
  configurations : List (String × Configuration)
  optionsParsed : Option OptionsParsed
  structuredCommandLine : Option StructuredCommandLine
  buildPatterns : List String
  namedSets : List (String × NamedSetOfFiles)
  convenienceSymlinks : List ConvenienceSymlink
  topLevelOutputSets : List (String × List String)
  progressStderrCache : List (String × String)
  actionStrategyCache : List (String × String)
  deriving DecidableEq, Repr

/-- The freshly constructed analyzer state. -/
def initState (ad : ActionDetails) (wl : Nat) : BuildState :=
  ⟨ad, wl, none, none, none, none, [], [], [], [], none, [], none, none, [],
    [], [], [], [], []⟩

/-- The ambient file system and URL library, an external collaborator of the
analyzer: `fileURLToPath` (errors model the thrown message),
`fs.existsSync` and `fs.readFileSync`. -/
structure FsModel where
  fileToPath : String → Except String String
  existsSync : String → Bool
  readFile : String → String

/-- `getFileStem` of part_004: basename up to the first dot. -/
def getFileStem (filePath : String) : String :=
  if filePath.isEmpty then ""
  else
    let basename :=
      ((splitChars filePath.data (fun c => c = '\\' || c = '/')).getLast?).getD []
    String.mk (((splitChars basename (fun c => c = '.')).head?).getD [])

/-- Strip a leading `@@` or `@` (the `label.replace(/^(@@?)/, "")`
normalization of target labels and patterns). -/
def stripAtAt (s : String) : String :=
  if jsStartsWith s "@@" then s.drop 2
  else if jsStartsWith s "@" then s.drop 1
  else s

/-- One line of the strategy-extraction scan: match the strategy regex
against the ANSI-stripped, trimmed line and record `stem ↦ strategy` when
group 3 matched and both are nonempty. -/
def strategyScanLine (cache : List (String × String)) (line : String) :
    List (String × String) :=
  let stripped := jsTrim (stripAnsiStatic line)
  match execAt strategyRe stripped.data 0 with
  | some (_, caps) =>
      if strTruthy (capStr stripped.data caps 3) then
        let description := jsTrim ((capStr stripped.data caps 1).getD "")
        let strategy := jsTrim ((capStr stripped.data caps 3).getD "")
        let stem := getFileStem description
        if !stem.isEmpty && !strategy.isEmpty then mapSet cache stem strategy
        else cache
      else cache
  | none => cache

/-- The progress-event block of processEvent: strategy extraction plus the
warning/error stderr cache keyed by child action labels. -/
def progressUpdate (s : BuildState) (data : BepData)
    (children : Option (List BepChild)) : BuildState :=
  let pd := data.progress.getD ⟨none, none⟩
  let fullStderr := (jsOrStr pd.stderr pd.stdout).getD ""
  let lines := (splitChars fullStderr.data (fun c => c = '\n')).map String.mk
  let cache' := lines.foldl strategyScanLine s.actionStrategyCache
  let relevant := lines.filter (fun l =>
    let cl := jsToLower (stripAnsiStatic l)
    jsIncludes cl "warning:" || jsIncludes cl "error:")
  let cleaned := jsTrim (String.intercalate "\n" relevant)
  let pcache' :=
    if !cleaned.isEmpty && children.isSome then
      (children.getD []).foldl
        (fun m ch =>
          match ch.actionCompletedLabel with
          | some l => if !l.isEmpty then mapSet m l cleaned else m
          | none => m)
        s.progressStderrCache
    else s.progressStderrCache
  { s with actionStrategyCache := cache', progressStderrCache := pcache' }

/-- JS `a || b` where both sides are optional non-string values (arrays and
objects are always truthy, so only presence decides). -/
def jsOrOpt {α : Type} (a b : Option α) : Option α :=
  if a.isSome then a else b

/-- The action-completed branch of processEvent. -/
def applyActionCompleted (fsm : FsModel) (s : BuildState)
    (idLabel idPrimaryOutput : Option String) (data : BepData) : BuildState :=
  match jsOrOpt data.completed data.action with
  | Option.none => s
  | some ad =>
      let label := jsOrStr idLabel idPrimaryOutput
      let primaryOutput :=
        if strTruthy idPrimaryOutput then
          some (FileRef.mk ("file://" ++ idPrimaryOutput.getD ""))
        else ad.primaryOutput
      let mnemonic :=
        if !strTruthy ad.mnemonic && strTruthy ad.type then ad.type
        else ad.mnemonic
      let actionResult :=
        match ad.actionResult with
        | some r => some r
        | Option.none =>
            let wallTimeMillis :=
              match ad.startTime, ad.endTime with
              | some st, some en => toString (en - st)
              | _, _ => "0"
            some (ActionResult.mk (ExecutionInfo.mk "0" wallTimeMillis))
      let outputUri := (primaryOutput.map FileRef.uri).getD ""
      let stem := getFileStem outputUri
      let useStrategy := !outputUri.isEmpty && mapHas s.actionStrategyCache stem
      let strategy :=
        if useStrategy then mapGet s.actionStrategyCache stem else Option.none
      let strategyCache' :=
        if useStrategy then mapDelete s.actionStrategyCache stem
        else s.actionStrategyCache
      let shouldProcessDetails :=
        s.actionDetails = ActionDetails.all ||
          (s.actionDetails = ActionDetails.failed && !ad.success)
      let fullActionPayload := (jsOrOpt data.action data.completed).getD ad
      let argv :=
        if shouldProcessDetails then
          jsOrOpt fullActionPayload.commandLine fullActionPayload.argv
        else ad.argv
      let cachedStderr :=
        if shouldProcessDetails && strTruthy label then
          mapGet s.progressStderrCache (label.getD "")
        else Option.none
      let stderrContent :=
        if shouldProcessDetails then
          if strTruthy cachedStderr then cachedStderr
          else
            match fullActionPayload.stderr with
            | some ref =>
                if !ref.uri.isEmpty then
                  match fsm.fileToPath ref.uri with
                  | Except.ok p =>
                      if fsm.existsSync p then some (fsm.readFile p)
                      else if ad.success then
                        some "[Info] Stderr file not found (likely cleaned up by Bazel)."
                      else
                        some ("[Error] Stderr file for FAILED action not found. URI: "
                          ++ ref.uri)
                  | Except.error msg =>
                      some ("[Error] Failed to process stderr URI: " ++ ref.uri
                        ++ ". Reason: " ++ msg)
                else Option.none
            | Option.none => Option.none
        else Option.none
      let stderrCache' :=
        if strTruthy cachedStderr then
          mapDelete s.progressStderrCache (label.getD "")
        else s.progressStderrCache
      let action : Action :=
        ⟨ad.success, ad.type, mnemonic, label, primaryOutput, argv,
          actionResult, strategy, stderrContent, ad.startTime, ad.endTime⟩
      { s with
        actions := s.actions ++ [action]
        actionStrategyCache := strategyCache'
        progressStderrCache := stderrCache' }

/-- The target-completed branch of processEvent. -/
def applyTargetCompleted (s : BuildState) (label : String)
    (configId : Option String) (data : BepData) : BuildState :=
  match data.completed with
  | Option.none => s
  | some cd =>
      if !cd.success then
        { s with failedTargets := s.failedTargets ++ [(label, configId)] }
      else
        let cleanLabel := stripAtAt label
        if s.buildPatterns.any
            (fun p => jsStartsWith cleanLabel (stripAtAt p)) then
          let fileSetIds :=
            match cd.outputGroup with
            | some groups =>
                groups.flatMap (fun g =>
                  match g.fileSets with
                  | some fss => fss.map FileSetRef.id
                  | Option.none => [])
            | Option.none => []
          if fileSetIds.length > 0 then
            { s with
              topLevelOutputSets := mapSet s.topLevelOutputSets label fileSetIds }
          else s
        else s

/-- The test-summary branch of processEvent: upsert by label. -/
def applyTestSummary (s : BuildState) (label : String) (data : BepData) :
    BuildState :=
  match data.summary with
  | Option.none => s
  | some d =>
      let summary : TestSummary := { d with label := some label }
      let ts :=
        match jsFindIndex (fun t => t.label == summary.label) s.testSummaries with
        | some i => s.testSummaries.set i summary
        | Option.none => s.testSummaries ++ [summary]
      { s with testSummaries := ts }

/-- StaticBepAnalyzer.processEvent (part_004, lines 96–320). -/
def processEvent (fsm : FsModel) (s : BuildState) (e : BepEvent) : BuildState :=
  let data := e.getData
  if e.id.any IdKey.isBuildStartedK || e.id.any IdKey.isStartedK then
    match data.started with
    | some st => { s with buildStarted := some st }
    | Option.none => s
  else if e.id.any IdKey.isBuildFinishedK || e.id.any IdKey.isFinishedK then
    match data.finished with
    | some fin => { s with buildFinished := some fin }
    | Option.none => s
  else
    let s :=
      if e.id.any IdKey.isProgressK &&
          strTruthy (jsOrStr (data.progress.bind ProgressPayload.stderr)
            (data.progress.bind ProgressPayload.stdout)) then
        progressUpdate s data e.children
      else s
    match e.id.head? with
    | some (IdKey.actionCompleted lbl po) =>
        applyActionCompleted fsm s lbl po data
    | some (IdKey.testSummary lbl) => applyTestSummary s lbl data
    | some IdKey.problem =>
        match data.problem with
        | some p => { s with problems := s.problems ++ [p] }
        | Option.none => s
    | some (IdKey.targetCompleted lbl cid) =>
        applyTargetCompleted s lbl cid data
    | some IdKey.workspaceStatus =>
        match data.workspaceStatus with
        | some w => { s with workspaceStatus := some w }
        | Option.none => s
    | some IdKey.optionsParsed =>
        match data.optionsParsed with
        | some o => { s with optionsParsed := some o }
        | Option.none => s
    | some IdKey.structuredCommandLine =>
        match data.structuredCommandLine with
        | some c =>
            if c.commandLineLabel = some "canonical" then
              { s with structuredCommandLine := some c }
            else s
        | Option.none => s
    | some (IdKey.pattern ps) =>
        match ps with
        | some pats => { s with buildPatterns := s.buildPatterns ++ pats }
        | Option.none => s
    | some (IdKey.namedSet setId) =>
        match setId, data.namedSetOfFiles with
        | some nsid, some nsf =>
            if !nsid.isEmpty then
              { s with namedSets := mapSet s.namedSets nsid nsf }
            else s
        | _, _ => s
    | some IdKey.convenienceSymlinksIdentified =>
        match data.convenienceSymlinksIdentified with
        | some payload =>
            match payload.convenienceSymlinks with
            | some links =>
                { s with convenienceSymlinks := s.convenienceSymlinks ++ links }
            | Option.none => s
        | Option.none => s
    | some (IdKey.configuration cid) =>
        match data.configuration with
        | some c => { s with configurations := mapSet s.configurations cid c }
        | Option.none => s
    | some IdKey.buildMetrics =>
        match e.top.buildMetrics with
        | some m => { s with buildMetrics := some m }
        | Option.none => s
    | some IdKey.buildToolLogs =>
        match e.top.buildToolLogs with
        | some l => { s with buildToolLogs := some l }
        | Option.none => s
    | _ => s

/-! ## The live analyzer (src/src/live-analyzer.ts) -/

/-- One running action extracted from a progress frame. -/
structure RunningAction where
  name : String
  duration : String
  deriving DecidableEq, Repr

/-- The result of parseProgress.  `completed`/`total` are JS numbers;
`none` models `NaN` (a counter group that was all commas). -/
structure ProgressInfo where
  completed : Option Int
  total : Option Int
  runningActions : List RunningAction
  logs : List String
  currentLabel : Option String
  deriving DecidableEq, Repr

/-- The cursor-reposition frame separator `\r\u001b[1A\u001b[K` that
parseProgress splits on. -/
def frameSep : String :=
  String.mk ['\r', '\x1b', '[', '1', 'A', '\x1b', '[', 'K']

/-- Numeric value of a running action's duration capture
(`parseInt(d, 10)`; the capture always starts with a digit, so the parse
cannot fail). -/
def durationVal (a : RunningAction) : Int :=
  (jsParseInt a.duration).getD 0

/-- Intermediate accumulator of parseProgress's line loop. -/
structure ProgressAcc where
  completed : Option Int
  total : Option Int
  currentLabel : Option String
  runningActions : List RunningAction
  logs : List String
  deriving DecidableEq, Repr

/-- One line of parseProgress's loop. -/
def parseProgressLine (acc : ProgressAcc) (line : String) : ProgressAcc :=
  let stripped := jsTrim (stripAnsiLive line)
  if stripped.isEmpty then acc
  else
    match execAt progressCounterRe stripped.data 0 with
    | some (_, caps) =>
        let completed :=
          jsParseIntList (((capStr stripped.data caps 1).getD "").data.filter
            (fun c => c ≠ ','))
        let total :=
          jsParseIntList (((capStr stripped.data caps 2).getD "").data.filter
            (fun c => c ≠ ','))
        let currentLabel :=
          match search labelRe stripped.data with
          | some (_, _, lcaps) =>
              some (jsTrim (String.mk
                ((splitChars ((capStr stripped.data lcaps 1).getD "").data
                  (fun c => c = ';')).head?.getD [])))
          | Option.none => acc.currentLabel
        { acc with completed := completed, total := total,
                   currentLabel := currentLabel }
    | Option.none =>
        match execAt runningActionRe stripped.data 0 with
        | some (_, caps) =>
            { acc with
              runningActions := acc.runningActions ++
                [⟨jsTrim ((capStr stripped.data caps 1).getD ""),
                  (capStr stripped.data caps 2).getD ""⟩] }
        | Option.none =>
            let lower := jsToLower stripped
            if jsIncludes lower "warning:" || jsIncludes lower "error:" then
              { acc with logs := acc.logs ++ [line] }
            else acc

/-- Descending-duration order used to sort running actions
(`sort((a, b) => parseInt(b) - parseInt(a))`, a stable sort). -/
def runningActionGE (a b : RunningAction) : Prop :=
  durationVal b ≤ durationVal a

instance : DecidableRel runningActionGE := fun a b =>
  inferInstanceAs (Decidable (durationVal b ≤ durationVal a))

instance : IsTotal RunningAction runningActionGE :=
  ⟨fun a b => le_total (durationVal b) (durationVal a)⟩

instance : IsTrans RunningAction runningActionGE :=
  ⟨fun _ _ _ hab hbc => le_trans hbc hab⟩

/-- parseProgress of live-analyzer.ts (lines 36–86). -/
def parseProgress (text : String) : ProgressInfo :=
  let blocks := splitSub text frameSep
  let lastBlock := (blocks.getLast?).getD ""
  let lines := (splitChars lastBlock.data (fun c => c = '\n')).map String.mk
  let acc := lines.foldl parseProgressLine ⟨some 0, some 0, Option.none, [], []⟩
  ⟨acc.completed, acc.total,
    acc.runningActions.insertionSort runningActionGE, acc.logs,
    acc.currentLabel⟩

/-- The three live display modes. -/
inductive LiveDisplayMode where
  | dashboard
  | vscodeLog
  | vscodeStatus
  deriving DecidableEq, Repr

/-- The live analyzer's state: the inherited accumulator state (`base`)
plus the live-only view fields.  `timerActive` models whether the render
timer handle is set; `lastProgressTotal`/`Completed` are JS numbers with
`none` as `NaN`. -/
structure LiveState where
  base : BuildState
  progressText : String
  runningTime : String
  isFinished : Bool
  timerActive : Bool
  spinnerIndex : Nat
  recentLogs : List String
  dashboardStartTime : Int
  lastProgressTotal : Option Int
  lastProgressCompleted : Option Int
  lastCurrentLabel : Option String
  deriving DecidableEq, Repr

/-- A freshly constructed live analyzer. -/
def initLive (ad : ActionDetails) (wl : Nat) : LiveState :=
  ⟨initState ad wl, "Initializing...", "0.00s", false, false, 0, [], 0,
    some 0, some 0, Option.none⟩

/-- addRecentLog: dedupe against the last entry, append, keep the last
five. -/
def addRecentLog (logs : List String) (log : String) : List String :=
  if logs.getLast? = some log then logs
  else
    let l := logs ++ [log]
    if l.length > 5 then l.drop (l.length - 5) else l

/-- JS string interpolation of a possibly-undefined value
(template literals print `undefined`). -/
def jsToStr (o : Option String) : String :=
  o.getD "undefined"

/-- JS `x > 0` where `x` may be `NaN` (`NaN > 0` is false). -/
def jsGtZero : Option Int → Bool
  | some v => v > 0
  | Option.none => false

/-- JS `x >= 0` where `x` may be `NaN`. -/
def jsGeZero : Option Int → Bool
  | some v => v ≥ 0
  | Option.none => false

/-- LiveBepAnalyzer.processEvent (live-analyzer.ts lines 165–248): feed the
event through the inherited accumulator, then update the live-only view
state.  Console output is not state; chalk colouring is the identity (chalk
disables colours on a non-TTY sink). -/
def liveProcessEvent (fsm : FsModel) (mode : LiveDisplayMode)
    (ls : LiveState) (e : BepEvent) : LiveState :=
  let base := processEvent fsm ls.base e
  let ls := { ls with base := base }
  let data := e.getData
  if e.id.any IdKey.isBuildStartedK || e.id.any IdKey.isStartedK then
    { ls with timerActive := true }
  else if e.id.any IdKey.isActionCompletedK then
    match base.actions.getLast? with
    | some lastAction =>
        if mode = LiveDisplayMode.dashboard then
          if lastAction.success then
            let log := "✔ " ++ jsToStr lastAction.label
            { ls with recentLogs := addRecentLog ls.recentLogs log }
          else if base.actionDetails ≠ ActionDetails.none then
            let log := "❌ FAILED: " ++ jsToStr lastAction.mnemonic ++ " " ++
              jsToStr lastAction.label
            { ls with recentLogs := addRecentLog ls.recentLogs log }
          else ls
        else ls
    | Option.none => ls
  else if e.id.any IdKey.isProblemK then
    match data.problem with
    | some p =>
        if mode = LiveDisplayMode.dashboard then
          let problemMsg := "Problem: " ++
            String.mk (((splitChars p.message.data (fun c => c = '\n')).head?).getD [])
          { ls with recentLogs := addRecentLog ls.recentLogs problemMsg }
        else ls
    | Option.none => ls
  else if e.id.any IdKey.isProgressK then
    let progressText :=
      (jsOrStr (data.progress.bind ProgressPayload.stderr)
        (data.progress.bind ProgressPayload.stdout)).getD ""
    let parsed := parseProgress progressText
    let ls := { ls with progressText := progressText }
    let ls :=
      if jsGtZero parsed.total && jsGeZero parsed.completed then
        { ls with lastProgressTotal := parsed.total,
                  lastProgressCompleted := parsed.completed }
      else ls
    let ls :=
      if strTruthy parsed.currentLabel then
        { ls with lastCurrentLabel := parsed.currentLabel }
      else ls
    if mode = LiveDisplayMode.dashboard then
      let logs' := parsed.logs.foldl
        (fun logs log =>
          if !(jsTrim (stripAnsiLive log)).isEmpty then
            addRecentLog logs ("  " ++ log)
          else logs)
        ls.recentLogs
      { ls with recentLogs := logs' }
    else ls
  else if e.id.any IdKey.isBuildFinishedK || e.id.any IdKey.isFinishedK then
    { ls with isFinished := true }
  else ls

/-! ## The named-set resolver (part_004, resolveFileSet) -/

/-- Number of map entries whose key is not yet in the visited set — the
termination measure of the breadth-first walk. -/
def unseenKeys (sets : List (String × NamedSetOfFiles)) (seen : List String) :
    Nat :=
  ((sets.map Prod.fst).filter (fun k => !seen.contains k)).length

/-- The breadth-first loop of resolveFileSet: pop the queue, skip already
visited ids, mark visited, emit the node's direct files, enqueue its
references; a referenced id with no registered node contributes nothing. -/
def resolveLoop (sets : List (String × NamedSetOfFiles)) :
    List String → List String → List FileItem → List FileItem
  | [], _, acc => acc
  | currentId :: rest, seen, acc =>
      if h1 : seen.contains currentId then resolveLoop sets rest seen acc
      else
        match h2 : mapGet sets currentId with
        | Option.none => resolveLoop sets rest (currentId :: seen) acc
        | some fileSet =>
            resolveLoop sets
              (rest ++ (fileSet.fileSets.getD []).map FileSetRef.id)
              (currentId :: seen)
              (acc ++ fileSet.files.getD [])
  termination_by queue seen _ => (unseenKeys sets seen, queue.length)
  decreasing_by
  · apply Prod.Lex.right
    simp
  · have hnotmem : ∀ (m : List (String × NamedSetOfFiles)),
        mapGet m currentId = Option.none → ¬ currentId ∈ m.map Prod.fst := by
      intro m
      induction m with
      | nil => intro _ hmem; simp at hmem
      | cons kv t ih =>
          intro hget hmem
          by_cases hk : kv.1 = currentId
          · simp [mapGet, hk] at hget
          · simp only [mapGet, hk, if_false] at hget
            rw [List.map_cons] at hmem
            rcases List.mem_cons.mp hmem with he | hm
            · exact hk he.symm
            · exact ih hget hm
    have heq : unseenKeys sets (currentId :: seen) = unseenKeys sets seen := by
      unfold unseenKeys
      congr 1
      apply List.filter_congr
      intro k hk
      have hne : k ≠ currentId := fun he => (hnotmem sets h2) (he ▸ hk)
      simp [List.contains_cons, hne]
    rw [heq]
    apply Prod.Lex.right
    simp
  · have hfle : ∀ (p q : String → Bool) (l : List String),
        (∀ x, p x = true → q x = true) →
        (l.filter p).length ≤ (l.filter q).length := by
      intro p q l hpq
      induction l with
      | nil => simp
      | cons a t ih =>
          cases hp : p a with
          | true =>
              have hq := hpq a hp
              simp only [List.filter_cons, hp, hq, if_true, List.length_cons]
              omega
          | false =>
              cases hq : q a with
              | true =>
                  simp [List.filter_cons, hp, hq]
                  omega
              | false =>
                  simp only [List.filter_cons, hp, hq]
                  simpa using ih
    have hmemof : ∀ (m : List (String × NamedSetOfFiles)),
        (mapGet m currentId).isSome = true → currentId ∈ m.map Prod.fst := by
      intro m
      induction m with
      | nil => intro hx; simp [mapGet] at hx
      | cons kv t ih =>
          intro hx
          by_cases hk : kv.1 = currentId
          · simp [hk]
          · simp only [mapGet, hk, if_false] at hx
            simp [ih hx]
    have hin : currentId ∈ sets.map Prod.fst := hmemof sets (by rw [h2]; rfl)
    have hns : seen.contains currentId = false := by simpa using h1
    have hlt : unseenKeys sets (currentId :: seen) < unseenKeys sets seen := by
      unfold unseenKeys
      generalize sets.map Prod.fst = l at hin
      induction l with
      | nil => cases hin
      | cons k t ih =>
          rw [List.filter_cons, List.filter_cons]
          by_cases hcc : ((currentId :: seen).contains k) = true
          · rw [if_neg (by rw [hcc]; simp)]
            by_cases hks : (seen.contains k) = true
            · rw [if_neg (by rw [hks]; simp)]
              have hk : currentId ≠ k := by
                intro he
                rw [← he] at hks
                rw [hks] at hns
                cases hns
              have hin' : currentId ∈ t := by
                rcases List.mem_cons.mp hin with hx | hx
                · exact absurd hx hk
                · exact hx
              exact ih hin'
            · have hks' : seen.contains k = false := by
                cases hb : seen.contains k
                · rfl
                · exact absurd hb hks
              rw [if_pos (by rw [hks']; rfl), List.length_cons]
              have hle := hfle
                (fun x => !(currentId :: seen).contains x)
                (fun x => !seen.contains x) t
                (by
                  intro x hx
                  simp only [List.contains_cons, Bool.not_eq_true',
                    Bool.or_eq_false_iff] at hx
                  simp only [Bool.not_eq_true']
                  exact hx.2)
              omega
          · have hcc' : ((currentId :: seen).contains k) = false := by
              cases hb : (currentId :: seen).contains k
              · rfl
              · exact absurd hb hcc
            have hparts : (k == currentId) = false ∧ seen.contains k = false := by
              simpa [List.contains_cons, Bool.or_eq_false_iff] using hcc'
            have hkc : currentId ≠ k := by
              intro he
              have hp := hparts.1
              rw [he] at hp
              simp at hp
            have hin' : currentId ∈ t := by
              rcases List.mem_cons.mp hin with hx | hx
              · exact absurd hx hkc
              · exact hx
            rw [if_pos (by rw [hcc']; rfl), if_pos (by rw [hparts.2]; rfl),
              List.length_cons, List.length_cons]
            have := ih hin'
            omega
    exact Prod.Lex.left _ _ hlt

/-- StaticBepAnalyzer.resolveFileSet (part_004, lines 322–343). -/
def resolveFileSet (sets : List (String × NamedSetOfFiles))
    (fileSetId : String) : List FileItem :=
  resolveLoop sets [fileSetId] [] []

/-- Direct files contributed by one id: the node's `files`, or nothing when
the id is unregistered. -/
def filesOfId (sets : List (String × NamedSetOfFiles)) (i : String) :
    List FileItem :=
  (((mapGet sets i).bind NamedSetOfFiles.files).getD [])

/-! ## The stream simulator (part_011, protobuf-capable variant) -/

/-- Execution info of a simulator event's action result; numeric-string
fields are carried as parsed values, `none` covering an absent or empty
(falsy) string. -/
structure SimExecInfo where
  startTimeMillis : Option Int
  wallTimeMillis : Option Int
  deriving DecidableEq, Repr

/-- Action result wrapper of a simulator event. -/
structure SimActionResult where
  executionInfo : Option SimExecInfo
  deriving DecidableEq, Repr

/-- Completed payload of a simulator event. -/
structure SimCompleted where
  actionResult : Option SimActionResult
  deriving DecidableEq, Repr

/-- Started payload of a simulator event. -/
structure SimStarted where
  startTimeMillis : Option Int
  deriving DecidableEq, Repr

/-- Finished payload of a simulator event. -/
structure SimFinished where
  finishTimeMillis : Option Int
  deriving DecidableEq, Repr

/-- Data fields of a simulator event. -/
structure SimData where
  started : Option SimStarted
  finished : Option SimFinished
  completed : Option SimCompleted
  deriving DecidableEq, Repr

/-- One decoded simulator event: the `actionCompleted` id marker, optional
payload wrapper, top-level data, and the raw record (`line`) that replay
writes to the sink. -/
structure SimEvent where
  idActionCompleted : Bool
  payload : Option SimData
  top : SimData
  line : String
  deriving DecidableEq, Repr

/-- The `event.payload || event` normalization of the simulator. -/
def SimEvent.getData (e : SimEvent) : SimData :=
  e.payload.getD e.top

/-- getEventTimestamp (part_011, lines 16–38): started's start time, else
finished's finish time, else — for an action-completed id with execution
info — start plus wall time, else null. -/
def getEventTimestamp (e : SimEvent) : Option Int :=
  let data := e.getData
  match data.started.bind SimStarted.startTimeMillis with
  | some t => some t
  | Option.none =>
    match data.finished.bind SimFinished.finishTimeMillis with
    | some t => some t
    | Option.none =>
      if e.idActionCompleted then
        match data.completed.bind SimCompleted.actionResult with
        | some ar =>
            match ar.executionInfo with
            | some info =>
                match info.startTimeMillis, info.wallTimeMillis with
                | some st, some wt => some (st + wt)
                | _, _ => Option.none
            | Option.none => Option.none
        | Option.none => Option.none
      else Option.none

/-- The simulator's accumulation state: collected (event, timestamp)
records, `lastTimestamp` and `firstTimestamp`. -/
abbrev SimAccState := List (SimEvent × Int) × Option Int × Option Int

/-- JS truthiness of a number variable that may be null (`null` and `0`
are falsy). -/
def optIntTruthy : Option Int → Bool
  | some v => v ≠ 0
  | Option.none => false

/-- One step of the simulator's reading loop (both the line branch and the
protobuf branch accumulate identically): a truthy derived timestamp is
kept and remembered (and recorded as the first timestamp when none is set,
`if (!firstTimestamp)`), otherwise the last truthy timestamp is inherited,
failing that zero. -/
def deriveStep (st : SimAccState) (e : SimEvent) : SimAccState :=
  let (events, lastT, firstT) := st
  match getEventTimestamp e with
  | some t =>
      if t ≠ 0 then
        (events ++ [(e, t)], some t,
          if optIntTruthy firstT then firstT else some t)
      else
        match lastT with
        | some l => (events ++ [(e, l)], lastT, firstT)
        | Option.none => (events ++ [(e, 0)], lastT, firstT)
  | Option.none =>
      match lastT with
      | some l => (events ++ [(e, l)], lastT, firstT)
      | Option.none => (events ++ [(e, 0)], lastT, firstT)

/-- Read a list of decoded events, deriving timestamps (the JSON branch of
simulateBepStream after parsing). -/
def deriveEvents (es : List SimEvent) : SimAccState :=
  es.foldl deriveStep ([], Option.none, Option.none)

/-- The first-record patch of simulateBepStream
(`if (events[0].timestamp === 0 && firstTimestamp)`): a leading record
with timestamp zero is lifted to the first truthy derived timestamp. -/
def patchFirst (evs : List (SimEvent × Int)) (firstT : Option Int) :
    List (SimEvent × Int) :=
  match evs with
  | [] => []
  | (e, t) :: rest =>
      if t = 0 && optIntTruthy firstT then (e, firstT.getD 0) :: rest
      else (e, t) :: rest

/-- Timestamp order of timed records (the comparator
`(a, b) => a.timestamp - b.timestamp`). -/
def timedLE (a b : SimEvent × Int) : Prop := a.2 ≤ b.2

instance : DecidableRel timedLE := fun a b =>
  inferInstanceAs (Decidable (a.2 ≤ b.2))

instance : IsTotal (SimEvent × Int) timedLE :=
  ⟨fun a b => le_total a.2 b.2⟩

instance : IsTrans (SimEvent × Int) timedLE :=
  ⟨fun _ _ _ hab hbc => le_trans hab hbc⟩

/-- The sorted timed record list the simulator replays: derive, patch the
first record, then sort stably by timestamp (JS `Array.prototype.sort` is
stable, and a stable sort under this comparator equals insertion sort). -/
def simReplayTimed (es : List SimEvent) : List (SimEvent × Int) :=
  let st := deriveEvents es
  if st.1.isEmpty then []
  else (patchFirst st.1 st.2.2).insertionSort timedLE

/-- The simulator's replay order on decoded events. -/
def simReplayOrder (es : List SimEvent) : List SimEvent :=
  (simReplayTimed es).map Prod.fst

/-- The record stream written to the sink when no delay applies
(`maxDelay = 0`): each replayed record plus a line terminator, in replay
order. -/
def simReplayLines (es : List SimEvent) : List String :=
  (simReplayOrder es).map (fun e => e.line ++ "\n")

/-- Timestamp assignment as the specification words it: each event gets its
own derived timestamp, otherwise the last previously derived (truthy)
timestamp, failing that zero — with no first-record patch.  `lastT` carries
the last truthy derived timestamp seen so far. -/
def specAssignAux (lastT : Option Int) : List SimEvent → List (SimEvent × Int)
  | [] => []
  | e :: rest =>
      match getEventTimestamp e with
      | some t =>
          if t ≠ 0 then (e, t) :: specAssignAux (some t) rest
          else (e, lastT.getD 0) :: specAssignAux lastT rest
      | Option.none => (e, lastT.getD 0) :: specAssignAux lastT rest

/-- Specification-worded timestamp assignment of a whole stream. -/
def specAssign (es : List SimEvent) : List (SimEvent × Int) :=
  specAssignAux Option.none es

/-- Replay order as the claim words it: a stable sort by the derived
timestamps, without the first-record patch. -/
def claimReplayOrder (es : List SimEvent) : List SimEvent :=
  ((specAssign es).insertionSort timedLE).map Prod.fst

/-- The first truthy directly-derived timestamp of a stream. -/
def firstDirectTs : List SimEvent → Option Int
  | [] => Option.none
  | e :: rest =>
      match getEventTimestamp e with
      | some t => if t ≠ 0 then some t else firstDirectTs rest
      | Option.none => firstDirectTs rest

/-- The last truthy directly-derived timestamp, continuing from a previous
value. -/
def lastDirectFrom (lastT : Option Int) : List SimEvent → Option Int
  | [] => lastT
  | e :: rest =>
      match getEventTimestamp e with
      | some t => if t ≠ 0 then lastDirectFrom (some t) rest
                  else lastDirectFrom lastT rest
      | Option.none => lastDirectFrom lastT rest

/-! ## The protobuf (length-prefixed binary) reading branch -/

/-- Protobuf base-128 varint encoding of a length. -/
def encodeVarint (n : Nat) : List Nat :=
  if n < 128 then [n]
  else (n % 128 + 128) :: encodeVarint (n / 128)
  decreasing_by exact Nat.div_lt_self (by omega) (by omega)

/-- Varint read of BinaryReader.uint32: up to five bytes, seven value bits
each, truncated to 32 bits; `none` models the reader throwing (buffer
exhausted mid-varint or an overlong varint). -/
def readVarintAux : List Nat → Nat → Nat → Nat → Option (Nat × List Nat)
  | _, 0, _, _ => Option.none
  | [], _ + 1, _, _ => Option.none
  | b :: rest, fuel + 1, shift, acc =>
      let acc' := acc + (b % 128) * 2 ^ shift
      if b < 128 then some (acc' % 2 ^ 32, rest)
      else readVarintAux rest fuel (shift + 7) acc'

/-- Read one varint from the head of the buffer. -/
def readVarint (bs : List Nat) : Option (Nat × List Nat) :=
  readVarintAux bs 5 0 0

/-- The protobuf reading loop of simulateBepStream (lines 68–99): read a
varint length, decode that many bytes as one record, accumulate it with the
shared timestamp derivation, advance; any failure breaks out of the loop,
keeping the state accumulated so far and flagging the error. -/
def pbLoop (decode : List Nat → Option SimEvent) :
    List Nat → SimAccState → SimAccState × Bool
  | [], st => (st, false)
  | b :: bs, st =>
      match h : readVarint (b :: bs) with
      | Option.none => (st, true)
      | some (len, rest) =>
          match decode (rest.take len) with
          | Option.none => (st, true)
          | some ev => pbLoop decode (rest.drop len) (deriveStep st ev)
  termination_by bs _ => bs.length
  decreasing_by
    have hrest : ∀ (l : List Nat) (fuel shift acc len' : Nat) (rest' : List Nat),
        readVarintAux l fuel shift acc = some (len', rest') →
        rest'.length < l.length := by
      intro l
      induction l with
      | nil =>
          intro fuel shift acc len' rest' hh
          cases fuel <;> simp [readVarintAux] at hh
      | cons hd t ih =>
          intro fuel shift acc len' rest' hh
          cases fuel with
          | zero => simp [readVarintAux] at hh
          | succ f =>
              simp only [readVarintAux] at hh
              by_cases hb : hd < 128
              · simp only [hb, if_true, Option.some_inj] at hh
                cases hh
                simp
              · simp only [hb, if_false] at hh
                have := ih f (shift + 7) (acc + hd % 128 * 2 ^ shift) len' rest' hh
                simp only [List.length_cons]
                omega
    have hlt := hrest (b :: bs) 5 0 0 len rest h
    have hdrop : (rest.drop len).length ≤ rest.length := by
      simp [List.length_drop]
    simp only [List.length_cons] at hlt ⊢
    omega

/-- Read an entire length-prefixed binary buffer from the initial state. -/
def pbDerive (decode : List Nat → Option SimEvent) (buf : List Nat) :
    SimAccState × Bool :=
  pbLoop decode buf ([], Option.none, Option.none)

/-- Frame a record list the way the simulator's reader expects: each
record preceded by its varint-encoded byte length. -/
def pbFrames (msgs : List (List Nat)) : List Nat :=
  (msgs.map (fun m => encodeVarint m.length ++ m)).flatten

/-! ## Concrete fixtures for counterexamples and witnesses -/

/-- A trivial ambient file system (no file exists). -/
def fsm0 : FsModel :=
  ⟨fun _ => Except.error "not a file URL", fun _ => false, fun _ => ""⟩

/-- A successful completed-action payload with an explicit action result. -/
def adSample : CompletedData :=
  ⟨true, Option.none, some "CppCompile", Option.none, Option.none,
    Option.none, some ⟨⟨"0", "5"⟩⟩, Option.none, Option.none, Option.none,
    Option.none⟩

/-- An action-completed event carrying `adSample`. -/
def evAction : BepEvent :=
  ⟨[IdKey.actionCompleted (some "//pkg:tgt") Option.none], Option.none,
    Option.none, { emptyData with completed := some adSample }⟩

/-- A build-finished event. -/
def evFinished : BepEvent :=
  ⟨[IdKey.finished], Option.none, Option.none,
    { emptyData with finished := some ⟨true, 600⟩ }⟩

/-- A live state that has already entered the FINISHED state. -/
def lsFinished : LiveState :=
  { initLive ActionDetails.failed 0 with isFinished := true }

/-- A named-set node holding one file, used by the overwrite
counterexample. -/
def nodeOne : NamedSetOfFiles := ⟨some [⟨"old.txt", "u1"⟩], Option.none⟩

/-- A different named-set node for the same id. -/
def nodeTwo : NamedSetOfFiles := ⟨some [⟨"new.txt", "u2"⟩], Option.none⟩

/-- A state whose named-set map already binds id `A`. -/
def stNamed : BuildState :=
  { initState ActionDetails.failed 0 with namedSets := [("A", nodeOne)] }

/-- A named-set event re-sending id `A` with a different node. -/
def evNamedSet : BepEvent :=
  ⟨[IdKey.namedSet (some "A")], Option.none, Option.none,
    { emptyData with namedSetOfFiles := some nodeTwo }⟩

/-- A test summary payload. -/
def tsSample : TestSummary := ⟨Option.none, "PASSED", 1, [], []⟩

/-- A test-summary event for label `//pkg:test`. -/
def evTestSummary : BepEvent :=
  ⟨[IdKey.testSummary "//pkg:test"], Option.none, Option.none,
    { emptyData with summary := some tsSample }⟩

/-- A state whose strategy cache holds an inferred strategy for the stem
`out`. -/
def stCache : BuildState :=
  { initState ActionDetails.failed 0 with
    actionStrategyCache := [("out", "local")] }

/-- An action-completed event whose primary output has the stem `out`. -/
def evStrat : BepEvent :=
  ⟨[IdKey.actionCompleted (some "//pkg:tgt") (some "/path/out.o")],
    Option.none, Option.none, { emptyData with completed := some adSample }⟩

/-- A state already holding a test summary for the label
`//pkg:test`. -/
def stTS : BuildState :=
  { initState ActionDetails.failed 0 with
    testSummaries := [⟨some "//pkg:test", "FAILED", 2, [], []⟩] }

/-- The named-set scenario of the specification: `A → [file1]`,
`B → [fileRef A, file2]`. -/
def scenarioSets : List (String × NamedSetOfFiles) :=
  [("A", ⟨some [⟨"file1", "u1"⟩], Option.none⟩),
   ("B", ⟨some [⟨"file2", "u2"⟩], some [⟨"A"⟩]⟩)]

/-- A diamond-shaped named-set graph: `C` references `B1` and `B2`, both of
which reference the shared leaf `A → [f1]`. -/
def diamondSets : List (String × NamedSetOfFiles) :=
  [("A", ⟨some [⟨"f1", "u"⟩], Option.none⟩),
   ("B1", ⟨Option.none, some [⟨"A"⟩]⟩),
   ("B2", ⟨Option.none, some [⟨"A"⟩]⟩),
   ("C", ⟨Option.none, some [⟨"B1"⟩, ⟨"B2"⟩]⟩)]

/-- A named-set graph whose root references an unregistered id besides its
own file. -/
def danglingSets : List (String × NamedSetOfFiles) :=
  [("B", ⟨some [⟨"file2", "u2"⟩], some [⟨"missing"⟩]⟩)]

/-- A simulator event with no payload and no timestamps, only a line. -/
def simPlain (l : String) : SimEvent :=
  ⟨false, Option.none, ⟨Option.none, Option.none, Option.none⟩, l⟩

/-- A simulator started event with the given start time. -/
def simStartedEv (l : String) (t : Int) : SimEvent :=
  ⟨false, Option.none, ⟨some ⟨some t⟩, Option.none, Option.none⟩, l⟩

/-- The out-of-order counterexample stream: a timestampless first record,
then start times 100 and 50. -/
def simCounterStream : List SimEvent :=
  [simPlain "e0", simStartedEv "e1" 100, simStartedEv "e2" 50]

/-- A concrete record decoder for the binary branch: the one-byte record
`[2]` fails to decode, the others decode to started events. -/
def pbDecodeFix : List Nat → Option SimEvent := fun m =>
  if m = [1] then some (simStartedEv "a" 10)
  else if m = [3] then some (simStartedEv "c" 30)
  else Option.none

/-- A three-record binary stream whose middle record fails to decode. -/
def pbMsgsFix : List (List Nat) := [[1], [2], [3]]

/-- The first (overwritten) frame of a two-frame progress payload: it holds
a running action that must not survive. -/
def c6Frame1 : String := "Executing old.cc; 9s"

/-- The second (current) frame: a counter line and two running actions,
listed with the shorter elapsed time first. -/
def c6Frame2 : String :=
  "[2/4] Compiling b\nCompiling a.cc; 2s\nLinking z; 4s"

end Bep

namespace Bep

/-! ## General lemmas about the embedded operations -/

/-- Filtering by a stronger predicate never keeps more elements. -/
theorem length_filter_imp_le {α : Type} (p q : α → Bool) (l : List α)
    (h : ∀ x, p x = true → q x = true) :
    (l.filter p).length ≤ (l.filter q).length := by
  induction l with
  | nil => simp
  | cons a t ih =>
      cases hp : p a with
      | true =>
          have hq := h a hp
          simp only [List.filter_cons, hp, hq, if_true, List.length_cons]
          omega
      | false =>
          cases hq : q a with
          | true =>
              simp [List.filter_cons, hp, hq]
              omega
          | false =>
              simp only [List.filter_cons, hp, hq]
              simpa using ih

/-- A found key is present in the key list. -/
theorem mapGet_isSome_mem {α : Type} (m : List (String × α)) (k : String)
    (h : (mapGet m k).isSome) : k ∈ m.map Prod.fst := by
  induction m with
  | nil => simp [mapGet] at h
  | cons kv t ih =>
      by_cases hk : kv.1 = k
      · simp [hk]
      · simp only [mapGet, hk, if_false] at h
        simp [ih h]

/-- Looking up the key just set yields the new value. -/
theorem mapGet_mapSet_self {α : Type} (m : List (String × α)) (k : String)
    (v : α) : mapGet (mapSet m k v) k = some v := by
  induction m with
  | nil => simp [mapSet, mapGet]
  | cons kv t ih =>
      by_cases hk : kv.1 = k
      · simp [mapSet, hk, mapGet]
      · simp [mapSet, hk, mapGet, ih]

/-- Setting a key preserves every present key. -/
theorem mapHas_mapSet {α : Type} (m : List (String × α)) (k k' : String)
    (v : α) (h : mapHas m k' = true) : mapHas (mapSet m k v) k' = true := by
  induction m with
  | nil => simp [mapHas, mapGet] at h
  | cons kv t ih =>
      simp only [mapHas, mapGet] at h
      by_cases hk : kv.1 = k
      · by_cases hk' : k = k'
        · simp [mapSet, hk, mapHas, mapGet, hk']
        · have hkk : ¬ kv.1 = k' := fun he => hk' ((hk.symm.trans he))
          rw [if_neg hkk] at h
          simp [mapSet, hk, mapHas, mapGet, hk', h]
      · simp only [mapSet, hk, if_false]
        by_cases hk' : kv.1 = k'
        · simp [mapHas, mapGet, hk']
        · rw [if_neg hk'] at h
          have := ih (by simpa [mapHas] using h)
          simp [mapHas, mapGet, hk']
          simpa [mapHas] using this

/-- The live analyzer's per-event update leaves the inherited accumulator
state exactly as the static `processEvent` computes it: everything the
subclass adds touches only live-only view fields. -/
theorem liveProcessEvent_base (fsm : FsModel) (mode : LiveDisplayMode)
    (ls : LiveState) (e : BepEvent) :
    (liveProcessEvent fsm mode ls e).base = processEvent fsm ls.base e := by
  unfold liveProcessEvent
  dsimp only
  repeat' split <;> try rfl

/-! ## C1 -/

/-- C1: for every sequence of decoded events fed in the same order, the
BuildState accumulated by the static analyzer's processEvent loop equals
the `base` state held by the live analyzer after it processes the same
events; quantifying over all event lists covers every prefix of a
stream. -/
theorem c1_live_replay_equiv (fsm : FsModel) (mode : LiveDisplayMode)
    (ad : ActionDetails) (wl : Nat) (es : List BepEvent) :
    (es.foldl (liveProcessEvent fsm mode) (initLive ad wl)).base =
      es.foldl (processEvent fsm) (initState ad wl) := by
  have gen : ∀ (l : List BepEvent) (ls : LiveState),
      (l.foldl (liveProcessEvent fsm mode) ls).base =
        l.foldl (processEvent fsm) ls.base := by
    intro l
    induction l with
    | nil => intro ls; rfl
    | cons e t ih =>
        intro ls
        rw [List.foldl_cons, List.foldl_cons, ih, liveProcessEvent_base]
  exact gen es (initLive ad wl)

/-! ## C7 -/

/-- C7 counterexample: the live analyzer's processEvent has no guard on the
finished flag — feeding an action-completed event to a FINISHED live
analyzer still mutates its state, so "no event after FINISHED is
processed" fails at the state-machine level (stopping is only effected by
the polling loop that unwatches the tail). -/
theorem c7_counterexample :
    lsFinished.isFinished = true ∧
    liveProcessEvent fsm0 LiveDisplayMode.vscodeLog lsFinished evAction ≠
      lsFinished := by
  constructor
  · rfl
  · decide

/-- C7 amended: the FINISHED flag is sticky — once set it survives every
further event — and a build-finished event (one whose id carries a
finished key and none of the earlier-dispatched keys) sets it; but
processEvent itself keeps processing events received after FINISHED, the
tail being stopped asynchronously by the polling loop instead. -/
theorem c7_amended (fsm : FsModel) (mode : LiveDisplayMode) (ls : LiveState)
    (e : BepEvent) :
    (ls.isFinished = true → (liveProcessEvent fsm mode ls e).isFinished = true)
    ∧ (((e.id.any IdKey.isBuildFinishedK || e.id.any IdKey.isFinishedK) = true ∧
        e.id.any IdKey.isBuildStartedK = false ∧
        e.id.any IdKey.isStartedK = false ∧
        e.id.any IdKey.isActionCompletedK = false ∧
        e.id.any IdKey.isProblemK = false ∧
        e.id.any IdKey.isProgressK = false) →
      (liveProcessEvent fsm mode ls e).isFinished = true) := by
  constructor
  · intro h
    unfold liveProcessEvent
    dsimp only
    repeat' split <;> try (first | exact h | rfl)
  · rintro ⟨h1, h2, h3, h4, h5, h6⟩
    unfold liveProcessEvent
    dsimp only
    simp [h1, h2, h3, h4, h5, h6]

/-- Witness for the amended C7 theorem at concrete inputs. -/
theorem c7_amended_witness :
    (liveProcessEvent fsm0 LiveDisplayMode.vscodeLog lsFinished evAction).isFinished
        = true ∧
    (liveProcessEvent fsm0 LiveDisplayMode.dashboard
        (initLive ActionDetails.failed 0) evFinished).isFinished = true :=
  ⟨(c7_amended fsm0 LiveDisplayMode.vscodeLog lsFinished evAction).1 rfl,
   (c7_amended fsm0 LiveDisplayMode.dashboard
      (initLive ActionDetails.failed 0) evFinished).2
      (by refine ⟨rfl, rfl, rfl, rfl, rfl, rfl⟩)⟩

/-! ## C9 -/

/-- The action-completed branch never touches the named-set map. -/
theorem applyActionCompleted_namedSets (fsm : FsModel) (s : BuildState)
    (l p : Option String) (d : BepData) :
    (applyActionCompleted fsm s l p d).namedSets = s.namedSets := by
  unfold applyActionCompleted
  split <;> rfl

/-- The test-summary branch never touches the named-set map. -/
theorem applyTestSummary_namedSets (s : BuildState) (lbl : String)
    (d : BepData) :
    (applyTestSummary s lbl d).namedSets = s.namedSets := by
  unfold applyTestSummary
  split <;> rfl

/-- The target-completed branch never touches the named-set map. -/
theorem applyTargetCompleted_namedSets (s : BuildState) (lbl : String)
    (cid : Option String) (d : BepData) :
    (applyTargetCompleted s lbl cid d).namedSets = s.namedSets := by
  unfold applyTargetCompleted
  rcases hd : d.completed with _ | cd
  · rfl
  · dsimp only
    simp only [apply_ite BuildState.namedSets]
    simp [ite_self]

/-- The progress block never touches the named-set map. -/
theorem progressUpdate_namedSets (s : BuildState) (d : BepData)
    (ch : Option (List BepChild)) :
    (progressUpdate s d ch).namedSets = s.namedSets := by
  unfold progressUpdate
  rfl

/-- Every branch of processEvent either leaves the named-set map unchanged
or applies a single `Map.set`. -/
theorem processEvent_namedSets (fsm : FsModel) (s : BuildState)
    (e : BepEvent) :
    (processEvent fsm s e).namedSets = s.namedSets ∨
    ∃ k v, (processEvent fsm s e).namedSets = mapSet s.namedSets k v := by
  unfold processEvent
  dsimp only
  split
  · split <;> (left; rfl)
  · split
    · split <;> (left; rfl)
    · set sMid :=
        (if (e.id.any IdKey.isProgressK &&
            strTruthy (jsOrStr (e.getData.progress.bind ProgressPayload.stderr)
              (e.getData.progress.bind ProgressPayload.stdout))) = true then
          progressUpdate s e.getData e.children
        else s) with hsm
      have hmidNS : sMid.namedSets = s.namedSets := by
        rw [hsm]
        split
        · exact progressUpdate_namedSets s e.getData e.children
        · rfl
      clear_value sMid
      repeat' split
      all_goals first
        | (left; rw [applyActionCompleted_namedSets, hmidNS])
        | (left; rw [applyTestSummary_namedSets, hmidNS])
        | (left; rw [applyTargetCompleted_namedSets, hmidNS])
        | (rw [← hmidNS]; right; exact ⟨_, _, rfl⟩)
        | (left; exact hmidNS)
        | (left; rfl)

/-- C9 counterexample: the named-set map is not insert-only — a later
named-set event carrying an already-bound id replaces the stored node. -/
theorem c9_counterexample :
    mapGet stNamed.namedSets "A" = some nodeOne ∧
    mapGet (processEvent fsm0 stNamed evNamedSet).namedSets "A" = some nodeTwo ∧
    nodeTwo ≠ nodeOne := by
  refine ⟨rfl, by decide, by decide⟩

/-- C9 amended: the named-set map never drops a binding (its key set is
insert-only), but a later named-set event with the same id overwrites the
stored node, last-write-wins. -/
theorem c9_amended :
    (∀ (fsm : FsModel) (s : BuildState) (e : BepEvent) (k : String),
        mapHas s.namedSets k = true →
        mapHas (processEvent fsm s e).namedSets k = true)
    ∧ (∀ (fsm : FsModel) (s : BuildState) (nsid : String)
          (nsf : NamedSetOfFiles) (e : BepEvent),
        e.id = [IdKey.namedSet (some nsid)] →
        (BepEvent.getData e).namedSetOfFiles = some nsf →
        nsid ≠ "" →
        mapGet (processEvent fsm s e).namedSets nsid = some nsf) := by
  constructor
  · intro fsm s e k h
    rcases processEvent_namedSets fsm s e with heq | ⟨k', v', heq⟩
    · rw [heq]; exact h
    · rw [heq]; exact mapHas_mapSet _ _ _ _ h
  · intro fsm s nsid nsf e hid hdata hne
    have hfalse : nsid.isEmpty = false := by
      cases hb : nsid.isEmpty
      · rfl
      · exact absurd ((String.isEmpty_iff nsid).mp hb) hne
    unfold processEvent
    rw [hid]
    simp [List.head?, hdata, hfalse, IdKey.isBuildStartedK, IdKey.isStartedK,
      IdKey.isBuildFinishedK, IdKey.isFinishedK, IdKey.isProgressK]
    exact mapGet_mapSet_self _ _ _

/-- Witness for the amended C9 theorem at concrete inputs. -/
theorem c9_amended_witness :
    mapHas (processEvent fsm0 stNamed evFinished).namedSets "A" = true ∧
    mapGet (processEvent fsm0 stNamed evNamedSet).namedSets "A" = some nodeTwo :=
  ⟨c9_amended.1 fsm0 stNamed evFinished "A" (by decide),
   c9_amended.2 fsm0 stNamed "A" nodeTwo evNamedSet rfl rfl (by decide)⟩

/-! ## C10 -/

/-- C10: an event whose payload lacks the sub-record its kind requires — a
build-started event without `started`, a build-finished event without
`finished`, an action-completed event with neither `completed` nor
`action`, a test-summary event without `summary`, a named-set event
without `namedSetOfFiles`, a configuration event without `configuration` —
leaves the entire BuildState unchanged. -/
theorem c10_missing_payload_skip (fsm : FsModel) (s : BuildState)
    (e : BepEvent)
    (h :
      ((e.id.any IdKey.isBuildStartedK || e.id.any IdKey.isStartedK) = true ∧
        (BepEvent.getData e).started = Option.none) ∨
      (e.id.any IdKey.isBuildStartedK = false ∧
        e.id.any IdKey.isStartedK = false ∧
        (e.id.any IdKey.isBuildFinishedK || e.id.any IdKey.isFinishedK) = true ∧
        (BepEvent.getData e).finished = Option.none) ∨
      ((∃ l p, e.id = [IdKey.actionCompleted l p]) ∧
        (BepEvent.getData e).completed = Option.none ∧
        (BepEvent.getData e).action = Option.none) ∨
      ((∃ lbl, e.id = [IdKey.testSummary lbl]) ∧
        (BepEvent.getData e).summary = Option.none) ∨
      ((∃ sid, e.id = [IdKey.namedSet sid]) ∧
        (BepEvent.getData e).namedSetOfFiles = Option.none) ∨
      ((∃ cid, e.id = [IdKey.configuration cid]) ∧
        (BepEvent.getData e).configuration = Option.none)) :
    processEvent fsm s e = s := by
  rcases h with ⟨h1, h2⟩ | ⟨h1, h2, h3, h4⟩ | ⟨⟨l, p, hid⟩, h2, h3⟩ |
    ⟨⟨lbl, hid⟩, h2⟩ | ⟨⟨sid, hid⟩, h2⟩ | ⟨⟨cid, hid⟩, h2⟩
  · unfold processEvent
    simp [h1, h2]
  · unfold processEvent
    simp [h1, h2, h3, h4]
  · unfold processEvent
    rw [hid]
    simp [List.head?, IdKey.isBuildStartedK, IdKey.isStartedK,
      IdKey.isBuildFinishedK, IdKey.isFinishedK, IdKey.isProgressK,
      applyActionCompleted, jsOrOpt, h2, h3]
  · unfold processEvent
    rw [hid]
    simp [List.head?, IdKey.isBuildStartedK, IdKey.isStartedK,
      IdKey.isBuildFinishedK, IdKey.isFinishedK, IdKey.isProgressK,
      applyTestSummary, h2]
  · unfold processEvent
    rw [hid]
    simp [List.head?, IdKey.isBuildStartedK, IdKey.isStartedK,
      IdKey.isBuildFinishedK, IdKey.isFinishedK, IdKey.isProgressK, h2]
  · unfold processEvent
    rw [hid]
    simp [List.head?, IdKey.isBuildStartedK, IdKey.isStartedK,
      IdKey.isBuildFinishedK, IdKey.isFinishedK, IdKey.isProgressK, h2]

/-- Witness for C10: a test-summary event without a summary payload is a
no-op on a concrete state. -/
theorem c10_missing_payload_skip_witness :
    processEvent fsm0 stNamed
      ⟨[IdKey.testSummary "//pkg:test"], Option.none, Option.none, emptyData⟩ =
      stNamed :=
  c10_missing_payload_skip fsm0 stNamed _
    (Or.inr (Or.inr (Or.inr (Or.inl ⟨⟨"//pkg:test", rfl⟩, rfl⟩))))

/-! ## C3 -/

/-- A findIndex hit is stable under writing a matching element at the found
index. -/
theorem jsFindIndex_set {α : Type} (p : α → Bool) (l : List α) (i : Nat)
    (a : α) (h : jsFindIndex p l = some i) (hp : p a = true) :
    jsFindIndex p (l.set i a) = some i := by
  induction l generalizing i with
  | nil => simp [jsFindIndex] at h
  | cons x t ih =>
      by_cases hx : p x = true
      · simp only [jsFindIndex, hx, if_true, Option.some_inj] at h
        subst h
        simp [List.set, jsFindIndex, hp]
      · simp only [jsFindIndex, hx, if_false] at h
        rcases Option.map_eq_some'.mp h with ⟨j, hj, hij⟩
        subst hij
        show jsFindIndex p ((x :: t).set (j + 1) a) = some (j + 1)
        simp only [List.set]
        simp only [jsFindIndex, hx, if_false, ih j hj]
        rfl

/-- A findIndex miss followed by appending a matching element finds it at
the old length. -/
theorem jsFindIndex_append_none {α : Type} (p : α → Bool) (l : List α)
    (a : α) (h : jsFindIndex p l = Option.none) (hp : p a = true) :
    jsFindIndex p (l ++ [a]) = some l.length := by
  induction l with
  | nil => simp [jsFindIndex, hp]
  | cons x t ih =>
      by_cases hx : p x = true
      · simp [jsFindIndex, hx] at h
      · simp only [jsFindIndex, hx, if_false] at h
        have ht : jsFindIndex p t = Option.none := by
          cases hjf : jsFindIndex p t
          · rfl
          · rw [hjf] at h; simp at h
        simp [jsFindIndex, hx, ih ht]

/-- Writing at the position of the just-appended element replaces it. -/
theorem set_append_length {α : Type} (l : List α) (a b : α) :
    (l ++ [a]).set l.length b = l ++ [b] := by
  induction l with
  | nil => rfl
  | cons x t ih => simp [List.set, ih]

/-- A matching member makes findIndex hit. -/
theorem jsFindIndex_isSome_of_mem {α : Type} (p : α → Bool) (l : List α)
    (x : α) (hx : x ∈ l) (hp : p x = true) :
    (jsFindIndex p l).isSome = true := by
  induction l with
  | nil => cases hx
  | cons y t ih =>
      by_cases hy : p y = true
      · simp [jsFindIndex, hy]
      · rcases List.mem_cons.mp hx with he | hm
        · rw [← he] at hy; exact absurd hp hy
        · simp only [jsFindIndex, hy, if_false]
          cases hjf : jsFindIndex p t
          · rw [hjf] at ih; simp at ih; exact absurd (ih hm) (by simp)
          · simp

/-- A findIndex miss means no member matches. -/
theorem jsFindIndex_none_all {α : Type} (p : α → Bool) (l : List α)
    (h : jsFindIndex p l = Option.none) : ∀ x ∈ l, p x = false := by
  induction l with
  | nil => intro x hx; cases hx
  | cons y t ih =>
      intro x hx
      by_cases hy : p y = true
      · simp [jsFindIndex, hy] at h
      · rcases List.mem_cons.mp hx with he | hm
        · subst he
          cases hb : p x
          · rfl
          · exact absurd hb hy
        · simp only [jsFindIndex, hy, if_false] at h
          have ht : jsFindIndex p t = Option.none := by
            cases hjf : jsFindIndex p t
            · rfl
            · rw [hjf] at h; simp at h
          exact ih ht x hm

/-- The hit of findIndex is in range and satisfies the predicate. -/
theorem jsFindIndex_get {α : Type} (p : α → Bool) (l : List α) (i : Nat)
    (h : jsFindIndex p l = some i) :
    ∃ hlt : i < l.length, p (l.get ⟨i, hlt⟩) = true := by
  induction l generalizing i with
  | nil => simp [jsFindIndex] at h
  | cons x t ih =>
      by_cases hx : p x = true
      · simp only [jsFindIndex, hx, if_true, Option.some_inj] at h
        subst h
        exact ⟨by simp, hx⟩
      · simp only [jsFindIndex, hx, if_false] at h
        rcases Option.map_eq_some'.mp h with ⟨j, hj, hij⟩
        subst hij
        rcases ih j hj with ⟨hlt, hpj⟩
        exact ⟨by simpa using hlt, hpj⟩

/-- Writing back the element already stored at an index is the identity. -/
theorem set_get_self {α : Type} (l : List α) (i : Nat) (x : α)
    (h : l.get? i = some x) : l.set i x = l := by
  induction l generalizing i with
  | nil => simp [List.get?] at h
  | cons y t ih =>
      cases i with
      | zero =>
          simp only [List.get?] at h
          cases h
          rfl
      | succ j =>
          simp only [List.get?] at h
          simp [List.set, ih j h]

/-- The action-completed branch never touches the test summaries. -/
theorem applyActionCompleted_testSummaries (fsm : FsModel) (s : BuildState)
    (l p : Option String) (d : BepData) :
    (applyActionCompleted fsm s l p d).testSummaries = s.testSummaries := by
  unfold applyActionCompleted
  split <;> rfl

/-- The target-completed branch never touches the test summaries. -/
theorem applyTargetCompleted_testSummaries (s : BuildState) (lbl : String)
    (cid : Option String) (d : BepData) :
    (applyTargetCompleted s lbl cid d).testSummaries = s.testSummaries := by
  unfold applyTargetCompleted
  rcases hd : d.completed with _ | cd
  · rfl
  · dsimp only
    simp only [apply_ite BuildState.testSummaries]
    simp [ite_self]

/-- The progress block never touches the test summaries. -/
theorem progressUpdate_testSummaries (s : BuildState) (d : BepData)
    (ch : Option (List BepChild)) :
    (progressUpdate s d ch).testSummaries = s.testSummaries := by
  unfold progressUpdate
  rfl

/-- On an event whose id is a lone test-summary key, processEvent is
exactly the upsert branch. -/
theorem processEvent_testSummary_reduce (fsm : FsModel) (s : BuildState)
    (lbl : String) (e : BepEvent) (hid : e.id = [IdKey.testSummary lbl]) :
    processEvent fsm s e = applyTestSummary s lbl (BepEvent.getData e) := by
  unfold processEvent
  rw [hid]
  simp [List.head?, IdKey.isBuildStartedK, IdKey.isStartedK,
    IdKey.isBuildFinishedK, IdKey.isFinishedK, IdKey.isProgressK]

/-- The upsert's core list update. -/
theorem applyTestSummary_testSummaries (s : BuildState) (lbl : String)
    (data : BepData) :
    (applyTestSummary s lbl data).testSummaries =
      match data.summary with
      | Option.none => s.testSummaries
      | some d =>
          match jsFindIndex
              (fun t => t.label == some lbl) s.testSummaries with
          | some i => s.testSummaries.set i { d with label := some lbl }
          | Option.none => s.testSummaries ++ [{ d with label := some lbl }]
    := by
  unfold applyTestSummary
  rcases data.summary with _ | d
  · rfl
  · rfl

/-- The upsert changes only the test-summary list. -/
theorem applyTestSummary_eq_update (s : BuildState) (lbl : String)
    (data : BepData) :
    applyTestSummary s lbl data =
      { s with testSummaries := (applyTestSummary s lbl data).testSummaries }
    := by
  unfold applyTestSummary
  rcases data.summary with _ | d
  · rfl
  · rfl

/-- Applying the same test-summary upsert twice equals applying it once. -/
theorem applyTestSummary_idem (s : BuildState) (lbl : String)
    (data : BepData) :
    applyTestSummary (applyTestSummary s lbl data) lbl data =
      applyTestSummary s lbl data := by
  rcases hd : data.summary with _ | d
  · unfold applyTestSummary
    rw [hd]
  · have hp : ((fun t : TestSummary => t.label == some lbl)
        { d with label := some lbl }) = true := by simp
    rw [applyTestSummary_eq_update s lbl data]
    rw [applyTestSummary_eq_update _ lbl data]
    rw [applyTestSummary_testSummaries, applyTestSummary_testSummaries]
    rw [hd]
    cases hf : jsFindIndex (fun t => t.label == some lbl) s.testSummaries with
    | some i =>
        have hset := jsFindIndex_set
          (fun t => t.label == some lbl) s.testSummaries i
          { d with label := some lbl } hf hp
        simp only [hset, List.set_set]
    | none =>
        have happ := jsFindIndex_append_none
          (fun t => t.label == some lbl) s.testSummaries
          { d with label := some lbl } hf hp
        simp only [happ, set_append_length]

/-- The upsert preserves label distinctness. -/
theorem applyTestSummary_labels_nodup (s : BuildState) (lbl : String)
    (data : BepData)
    (h : (s.testSummaries.map TestSummary.label).Nodup) :
    ((applyTestSummary s lbl data).testSummaries.map TestSummary.label).Nodup
    := by
  rw [applyTestSummary_testSummaries]
  rcases hd : data.summary with _ | d
  · exact h
  · cases hf : jsFindIndex (fun t => t.label == some lbl) s.testSummaries with
    | some i =>
        rcases jsFindIndex_get _ _ _ hf with ⟨hlt, hpi⟩
        have hlab : (s.testSummaries.get ⟨i, hlt⟩).label = some lbl := by
          simpa using hpi
        rw [List.map_set]
        have hget : (s.testSummaries.map TestSummary.label).get? i =
            some (some lbl) := by
          rw [List.get?_map]
          rw [List.get?_eq_get hlt]
          simpa using hlab
        rw [set_get_self _ _ _ hget]
        exact h
    | none =>
        have hall := jsFindIndex_none_all _ _ hf
        rw [List.map_append]
        rw [List.nodup_append]
        refine ⟨h, by simp, ?_⟩
        intro x hx hx2
        rcases List.mem_map.mp hx with ⟨t, hmem, hxt⟩
        rcases List.mem_map.mp hx2 with ⟨t2, hmem2, hxt2⟩
        have ht2 : t2 = { d with label := some lbl } := by simpa using hmem2
        have hxl : x = some lbl := by rw [← hxt2, ht2]
        have hne := hall t hmem
        rw [← hxt] at hxl
        rw [hxl] at hne
        simp at hne

/-- Every processEvent branch preserves label distinctness of the test
summaries. -/
theorem processEvent_labels_nodup (fsm : FsModel) (s : BuildState)
    (e : BepEvent)
    (h : (s.testSummaries.map TestSummary.label).Nodup) :
    (((processEvent fsm s e).testSummaries.map TestSummary.label)).Nodup := by
  unfold processEvent
  dsimp only
  split
  · split
    · exact h
    · exact h
  · split
    · split
      · exact h
      · exact h
    · set sMid :=
        (if (e.id.any IdKey.isProgressK &&
            strTruthy (jsOrStr (e.getData.progress.bind ProgressPayload.stderr)
              (e.getData.progress.bind ProgressPayload.stdout))) = true then
          progressUpdate s e.getData e.children
        else s) with hsm
      have hmidTS : sMid.testSummaries = s.testSummaries := by
        rw [hsm]
        split
        · exact progressUpdate_testSummaries s e.getData e.children
        · rfl
      clear_value sMid
      have hmidN : (sMid.testSummaries.map TestSummary.label).Nodup := by
        rw [hmidTS]; exact h
      repeat' split
      all_goals first
        | (rw [applyActionCompleted_testSummaries, hmidTS]; exact h)
        | (rw [applyTargetCompleted_testSummaries, hmidTS]; exact h)
        | (exact applyTestSummary_labels_nodup sMid _ _ hmidN)
        | (rw [hmidTS]; exact h)
        | (exact hmidN)

/-- C3: processing a test-summary event whose label already has an entry
replaces that entry (the list does not grow); the test-summary list of any
state reached from a fresh analyzer holds at most one entry per label;
and applying the same test-summary event twice equals applying it once
(last-write-wins upsert). -/
theorem c3_test_summary_upsert (fsm : FsModel) (s : BuildState)
    (lbl : String) (d : TestSummary) (e : BepEvent)
    (hid : e.id = [IdKey.testSummary lbl])
    (hdata : (BepEvent.getData e).summary = some d) :
    ((∃ t ∈ s.testSummaries, t.label = some lbl) →
      (processEvent fsm s e).testSummaries.length =
        s.testSummaries.length) ∧
    processEvent fsm (processEvent fsm s e) e = processEvent fsm s e ∧
    ((s.testSummaries.map TestSummary.label).Nodup →
      (((processEvent fsm s e).testSummaries.map TestSummary.label)).Nodup) ∧
    (∀ (ad : ActionDetails) (wl : Nat) (es : List BepEvent),
      (((es.foldl (processEvent fsm) (initState ad wl)).testSummaries.map
        TestSummary.label)).Nodup) := by
  refine ⟨?_, ?_, ?_, ?_⟩
  · rintro ⟨t, hmem, hlab⟩
    rw [processEvent_testSummary_reduce fsm s lbl e hid]
    rw [applyTestSummary_eq_update]
    rw [applyTestSummary_testSummaries]
    rw [hdata]
    have hsome := jsFindIndex_isSome_of_mem
      (fun t => t.label == some lbl) s.testSummaries t hmem (by simp [hlab])
    cases hf : jsFindIndex (fun t => t.label == some lbl) s.testSummaries with
    | some i => simp
    | none => rw [hf] at hsome; simp at hsome
  · rw [processEvent_testSummary_reduce fsm s lbl e hid]
    rw [processEvent_testSummary_reduce fsm _ lbl e hid]
    exact applyTestSummary_idem s lbl (BepEvent.getData e)
  · intro h
    exact processEvent_labels_nodup fsm s e h
  · intro ad wl es
    induction es using List.reverseRecOn with
    | nil => simp [initState]
    | append_singleton t ev ih =>
        rw [List.foldl_append]
        exact processEvent_labels_nodup fsm _ ev ih

/-! ## C2 -/

/-- The breadth-first loop emits exactly the direct files of a duplicate-free
list of ids — the nodes it visits — each id unvisited on entry and
registered in the map; so every reachable node is expanded at most once and
unregistered references contribute nothing. -/
theorem resolveLoop_spec (sets : List (String × NamedSetOfFiles)) :
    ∀ (queue seen : List String) (acc : List FileItem),
      ∃ visited : List String,
        visited.Nodup ∧
        (∀ v ∈ visited, seen.contains v = false ∧ (mapGet sets v).isSome) ∧
        resolveLoop sets queue seen acc =
          acc ++ visited.flatMap (fun i => filesOfId sets i) := by
  intro queue seen acc
  induction queue, seen, acc using resolveLoop.induct sets with
  | case1 seen acc =>
      refine ⟨[], by simp, by simp, ?_⟩
      rw [resolveLoop]
      simp
  | case2 currentId rest seen acc hseen ih =>
      rcases ih with ⟨vs, hnd, hcond, heq⟩
      refine ⟨vs, hnd, hcond, ?_⟩
      rw [resolveLoop]
      simp only [hseen, dite_true]
      exact heq
  | case3 currentId rest seen acc hseen hget ih =>
      rcases ih with ⟨vs, hnd, hcond, heq⟩
      refine ⟨vs, hnd, ?_, ?_⟩
      · intro v hv
        rcases hcond v hv with ⟨hc, hs⟩
        constructor
        · simp only [List.contains_cons, Bool.or_eq_false_iff] at hc
          exact hc.2
        · exact hs
      · rw [resolveLoop, dif_neg hseen]
        split
        · exact heq
        · rename_i fs hg
          rw [hget] at hg
          cases hg
  | case4 currentId rest seen acc hseen fileSet hget ih =>
      rcases ih with ⟨vs, hnd, hcond, heq⟩
      have hvne : ∀ v ∈ vs, v ≠ currentId := by
        intro v hv he
        rcases hcond v hv with ⟨hc, _⟩
        rw [he] at hc
        simp [List.contains_cons] at hc
      refine ⟨currentId :: vs, ?_, ?_, ?_⟩
      · rw [List.nodup_cons]
        exact ⟨fun hmem => hvne currentId hmem rfl, hnd⟩
      · intro v hv
        rcases List.mem_cons.mp hv with he | hm
        · subst he
          refine ⟨by simpa using hseen, ?_⟩
          rw [hget]
          rfl
        · rcases hcond v hm with ⟨hc, hs⟩
          refine ⟨?_, hs⟩
          simp only [List.contains_cons, Bool.or_eq_false_iff] at hc
          exact hc.2
      · rw [resolveLoop, dif_neg hseen]
        split
        · rename_i hg
          rw [hget] at hg
          cases hg
        · rename_i fs hg
          rw [hget] at hg
          injection hg with hfs
          subst hfs
          rw [heq]
          have hfc : filesOfId sets currentId = fileSet.files.getD [] := by
            unfold filesOfId
            rw [hget]
            rfl
          rw [List.flatMap_cons, hfc]
          simp [List.append_assoc]

/-- C2: resolveFileSet is total; each emission run comes from a
duplicate-free visited set of registered nodes (so a node reachable twice
is expanded once and an unregistered reference contributes nothing); an
unregistered root yields nothing; and on the specification's concrete
graphs — a dangling reference, the two-node scenario, and a diamond — it
yields exactly the expected files, each leaf once. -/
theorem c2_resolve_file_set :
    (∀ (sets : List (String × NamedSetOfFiles)) (root : String),
      ∃ visited : List String,
        visited.Nodup ∧
        (∀ v ∈ visited, (mapGet sets v).isSome) ∧
        resolveFileSet sets root =
          visited.flatMap (fun i => filesOfId sets i)) ∧
    (∀ (sets : List (String × NamedSetOfFiles)) (root : String),
      mapGet sets root = Option.none → resolveFileSet sets root = []) ∧
    (resolveFileSet danglingSets "B").map FileItem.name = ["file2"] ∧
    (resolveFileSet scenarioSets "B").map FileItem.name = ["file2", "file1"] ∧
    (resolveFileSet diamondSets "C").map FileItem.name = ["f1"] := by
  refine ⟨?_, ?_, ?_, ?_, ?_⟩
  · intro sets root
    rcases resolveLoop_spec sets [root] [] [] with ⟨vs, hnd, hcond, heq⟩
    exact ⟨vs, hnd, fun v hv => (hcond v hv).2, by simpa using heq⟩
  · intro sets root h
    unfold resolveFileSet
    rw [resolveLoop, dif_neg (by simp)]
    split
    · rw [resolveLoop]
    · rename_i fs hg
      rw [h] at hg
      cases hg
  · simp [resolveFileSet, resolveLoop, danglingSets, mapGet]
  · simp [resolveFileSet, resolveLoop, scenarioSets, mapGet]
  · simp [resolveFileSet, resolveLoop, diamondSets, mapGet]

/-- Witness for C2: discharging the unregistered-root hypothesis at a
concrete graph and root. -/
theorem c2_resolve_file_set_witness :
    resolveFileSet danglingSets "missing" = [] :=
  c2_resolve_file_set.2.1 danglingSets "missing" rfl

/-! ## C8 -/

/-- A `file://`-prefixed URI is never the empty string. -/
theorem fileUri_not_empty (x : String) : ("file://" ++ x).isEmpty = false := by
  cases hb : ("file://" ++ x).isEmpty
  · rfl
  · have h2 := (String.isEmpty_iff _).mp hb
    have hl := congrArg String.length h2
    rw [String.length_append] at hl
    have h7 : ("file://" : String).length = 7 := rfl
    rw [h7] at hl
    simp at hl

/-- Deleting a key of a duplicate-free map removes its binding. -/
theorem mapGet_mapDelete_self {α : Type} (m : List (String × α)) (k : String)
    (h : (m.map Prod.fst).Nodup) : mapGet (mapDelete m k) k = Option.none := by
  induction m with
  | nil => rfl
  | cons kv t ih =>
      rw [List.map_cons, List.nodup_cons] at h
      by_cases hk : kv.1 = k
      · simp only [mapDelete, hk, if_true]
        cases hmg : mapGet t k
        · rfl
        · have hmem := mapGet_isSome_mem t k (by rw [hmg]; rfl)
          rw [hk] at h
          exact absurd hmem h.1
      · have hstep : mapDelete (kv :: t) k = kv :: mapDelete t k := by
          simp [mapDelete, hk]
        rw [hstep, mapGet, if_neg hk]
        exact ih h.2

/-- An element surviving a delete was in the original map. -/
theorem mem_of_mem_mapDelete {α : Type} (m : List (String × α)) (k : String)
    (x : String × α) (hx : x ∈ mapDelete m k) : x ∈ m := by
  induction m with
  | nil => simp [mapDelete] at hx
  | cons y t ih =>
      by_cases hy : y.1 = k
      · simp only [mapDelete, hy, if_true] at hx
        exact List.mem_cons_of_mem y hx
      · simp only [mapDelete, hy, if_false] at hx
        rcases List.mem_cons.mp hx with he | hm
        · exact he ▸ List.mem_cons_self y t
        · exact List.mem_cons_of_mem y (ih hm)

/-- Deleting any key keeps the key list duplicate-free. -/
theorem mapDelete_keys_nodup {α : Type} (m : List (String × α)) (k : String)
    (h : (m.map Prod.fst).Nodup) :
    ((mapDelete m k).map Prod.fst).Nodup := by
  induction m with
  | nil => simp [mapDelete]
  | cons kv t ih =>
      rw [List.map_cons, List.nodup_cons] at h
      by_cases hk : kv.1 = k
      · simp only [mapDelete, hk, if_true]
        exact h.2
      · simp only [mapDelete, hk, if_false, List.map_cons, List.nodup_cons]
        refine ⟨?_, ih h.2⟩
        intro hmem
        rcases List.mem_map.mp hmem with ⟨kv2, hmem2, hk2⟩
        exact h.1 (List.mem_map.mpr
          ⟨kv2, mem_of_mem_mapDelete t k kv2 hmem2, hk2⟩)

/-- On an event whose id is a lone action-completed key, processEvent is
exactly the action branch. -/
theorem processEvent_actionCompleted_reduce (fsm : FsModel) (s : BuildState)
    (lbl po : Option String) (e : BepEvent)
    (hid : e.id = [IdKey.actionCompleted lbl po]) :
    processEvent fsm s e =
      applyActionCompleted fsm s lbl po (BepEvent.getData e) := by
  unfold processEvent
  rw [hid]
  simp [List.head?, IdKey.isBuildStartedK, IdKey.isStartedK,
    IdKey.isBuildFinishedK, IdKey.isFinishedK, IdKey.isProgressK]

/-- The action branch appends one action whose strategy is looked up (and
consumed) from the strategy cache under the stem of the id's primary
output URI. -/
theorem applyActionCompleted_strategy (fsm : FsModel) (s : BuildState)
    (lbl po : Option String) (ad : CompletedData) (data : BepData)
    (hdata : data.completed = some ad)
    (hpo : strTruthy po = true) :
    ∃ action : Action,
      (applyActionCompleted fsm s lbl po data).actions =
        s.actions ++ [action] ∧
      action.strategy =
        mapGet s.actionStrategyCache
          (getFileStem ("file://" ++ po.getD "")) ∧
      (applyActionCompleted fsm s lbl po data).actionStrategyCache =
        (if mapHas s.actionStrategyCache
            (getFileStem ("file://" ++ po.getD "")) then
          mapDelete s.actionStrategyCache
            (getFileStem ("file://" ++ po.getD ""))
        else s.actionStrategyCache) := by
  unfold applyActionCompleted
  rw [hdata]
  simp only [jsOrOpt, Option.isSome_some, if_true, hpo]
  simp only [Option.map_some', Option.getD_some, fileUri_not_empty,
    Bool.not_false, Bool.true_and]
  by_cases hhas : mapHas s.actionStrategyCache
      (getFileStem ("file://" ++ po.getD "")) = true
  · simp only [hhas, if_true]
    refine ⟨_, rfl, ?_, ?_⟩ <;> first | rfl | trivial
  · have hhas' : mapHas s.actionStrategyCache
        (getFileStem ("file://" ++ po.getD "")) = false := by
      cases hb : mapHas s.actionStrategyCache
          (getFileStem ("file://" ++ po.getD ""))
      · rfl
      · exact absurd hb hhas
    have hget : mapGet s.actionStrategyCache
        (getFileStem ("file://" ++ po.getD "")) = Option.none := by
      cases hb : mapGet s.actionStrategyCache
          (getFileStem ("file://" ++ po.getD ""))
      · rfl
      · have hms : mapHas s.actionStrategyCache
            (getFileStem ("file://" ++ po.getD "")) = true := by
          unfold mapHas
          rw [hb]
          rfl
        exact absurd (hhas'.symm.trans hms) (by decide)
    simp only [hhas', Bool.false_eq_true, if_false]
    refine ⟨_, rfl, ?_, ?_⟩ <;> first | (rw [hget]) | rfl | trivial

/-- C8: an action-completed event whose primary-output stem has a cached
strategy attaches it to the constructed Action and deletes the cache
entry, so a later action with the same output stem (here: the same event
again, with a duplicate-free cache) gets no strategy. -/
theorem c8_strategy_attach_consume (fsm : FsModel) (s : BuildState)
    (lbl po : Option String) (ad : CompletedData) (e : BepEvent)
    (strat : String)
    (hid : e.id = [IdKey.actionCompleted lbl po])
    (hpo : strTruthy po = true)
    (hdata : (BepEvent.getData e).completed = some ad)
    (hnodup : (s.actionStrategyCache.map Prod.fst).Nodup)
    (hcache : mapGet s.actionStrategyCache
        (getFileStem ("file://" ++ po.getD "")) = some strat) :
    ((processEvent fsm s e).actions.getLast?).map Action.strategy =
        some (some strat) ∧
    (processEvent fsm s e).actionStrategyCache =
      mapDelete s.actionStrategyCache
        (getFileStem ("file://" ++ po.getD "")) ∧
    ((processEvent fsm (processEvent fsm s e) e).actions.getLast?).map
        Action.strategy = some Option.none := by
  have hhas : mapHas s.actionStrategyCache
      (getFileStem ("file://" ++ po.getD "")) = true := by
    unfold mapHas
    rw [hcache]
    rfl
  rw [processEvent_actionCompleted_reduce fsm s lbl po e hid]
  rcases applyActionCompleted_strategy fsm s lbl po ad (BepEvent.getData e)
    hdata hpo with ⟨action, hacts, hstrat, hcch⟩
  refine ⟨?_, ?_, ?_⟩
  · rw [hacts, List.getLast?_concat]
    rw [Option.map_some']
    rw [hstrat, hcache]
  · rw [hcch, if_pos hhas]
  · rw [processEvent_actionCompleted_reduce fsm _ lbl po e hid]
    rcases applyActionCompleted_strategy fsm
      (applyActionCompleted fsm s lbl po (BepEvent.getData e)) lbl po ad
      (BepEvent.getData e) hdata hpo with ⟨action2, hacts2, hstrat2, _⟩
    rw [hacts2, List.getLast?_concat, Option.map_some']
    rw [hstrat2]
    rw [hcch, if_pos hhas]
    rw [mapGet_mapDelete_self _ _ hnodup]

/-- Witness for C8 at a concrete cache, event and state. -/
theorem c8_strategy_attach_consume_witness :
    ((processEvent fsm0 stCache evStrat).actions.getLast?).map
        Action.strategy = some (some "local") ∧
    (processEvent fsm0 stCache evStrat).actionStrategyCache =
      mapDelete stCache.actionStrategyCache
        (getFileStem ("file://" ++ (some "/path/out.o" : Option String).getD "")) ∧
    ((processEvent fsm0 (processEvent fsm0 stCache evStrat) evStrat).actions.getLast?).map
        Action.strategy = some Option.none :=
  c8_strategy_attach_consume fsm0 stCache (some "//pkg:tgt")
    (some "/path/out.o") adSample evStrat "local" rfl (by decide) rfl
    (by decide) (by decide)

/-! ## C4 -/

/-- The specification-worded assignment decorates each event in place. -/
theorem specAssignAux_map_fst (es : List SimEvent) :
    ∀ lastT : Option Int, (specAssignAux lastT es).map Prod.fst = es := by
  induction es with
  | nil => intro lastT; rfl
  | cons e t ih =>
      intro lastT
      unfold specAssignAux
      cases hts : getEventTimestamp e with
      | none => simp [ih]
      | some tv =>
          by_cases htv : tv = 0
          · simp [htv, ih]
          · simp [htv, ih]

/-- The first-record patch keeps the event sequence. -/
theorem patchFirst_map_fst (evs : List (SimEvent × Int))
    (firstT : Option Int) :
    (patchFirst evs firstT).map Prod.fst = evs.map Prod.fst := by
  rcases evs with _ | ⟨⟨e, t⟩, rest⟩
  · rfl
  · show List.map Prod.fst
        (if (t = 0 && optIntTruthy firstT) = true
         then (e, firstT.getD 0) :: rest else (e, t) :: rest) =
      List.map Prod.fst ((e, t) :: rest)
    split <;> simp

/-- The simulator's one-pass accumulation of timestamps, last-truthy value
and first-truthy value is the specification-worded assignment. -/
theorem deriveStep_foldl (es : List SimEvent) :
    ∀ (acc : List (SimEvent × Int)) (lastT firstT : Option Int),
      (optIntTruthy firstT = true ∨ firstT = Option.none) →
      es.foldl deriveStep (acc, lastT, firstT) =
        (acc ++ specAssignAux lastT es,
         lastDirectFrom lastT es,
         if optIntTruthy firstT then firstT else firstDirectTs es) := by
  induction es with
  | nil =>
      intro acc lastT firstT hft
      rcases hft with hft | hft
      · simp [specAssignAux, lastDirectFrom, firstDirectTs, hft]
      · simp [specAssignAux, lastDirectFrom, firstDirectTs, hft, optIntTruthy]
  | cons e t ih =>
      intro acc lastT firstT hft
      rw [List.foldl_cons]
      show List.foldl deriveStep (deriveStep (acc, lastT, firstT) e) t = _
      cases hts : getEventTimestamp e with
      | none =>
          cases hl : lastT with
          | some l =>
              simp only [deriveStep, hts, hl]
              rw [ih (acc ++ [(e, l)]) (some l) firstT hft]
              simp [specAssignAux, lastDirectFrom, firstDirectTs, hts]
          | none =>
              simp only [deriveStep, hts, hl]
              rw [ih (acc ++ [(e, 0)]) Option.none firstT hft]
              simp [specAssignAux, lastDirectFrom, firstDirectTs, hts,
                optIntTruthy]
      | some tv =>
          by_cases htv : tv ≠ 0
          · simp only [deriveStep, hts]
            rw [if_pos htv]
            have hft' : optIntTruthy
                (if optIntTruthy firstT then firstT else some tv) = true ∨
                (if optIntTruthy firstT then firstT else some tv) =
                  Option.none := by
              left
              split
              · rcases hft with hft | hft
                · exact hft
                · rename_i hcond
                  rw [hft] at hcond
                  simp [optIntTruthy] at hcond
              · simp [optIntTruthy, htv]
            rw [ih (acc ++ [(e, tv)]) (some tv) _ hft']
            rcases hft with hft | hft
            · simp [specAssignAux, lastDirectFrom, firstDirectTs, hts, htv,
                hft]
            · simp [specAssignAux, lastDirectFrom, firstDirectTs, hts, htv,
                hft, optIntTruthy]
          · have htv0 : tv = 0 := by omega
            subst htv0
            cases hl : lastT with
            | some l =>
                simp only [deriveStep, hts, hl]
                rw [if_neg (by omega)]
                rw [ih (acc ++ [(e, l)]) (some l) firstT hft]
                simp [specAssignAux, lastDirectFrom, firstDirectTs, hts]
            | none =>
                simp only [deriveStep, hts, hl]
                rw [if_neg (by omega)]
                rw [ih (acc ++ [(e, 0)]) Option.none firstT hft]
                simp [specAssignAux, lastDirectFrom, firstDirectTs, hts,
                  optIntTruthy]

/-- The whole reading pass, from the initial state. -/
theorem deriveEvents_eq (es : List SimEvent) :
    deriveEvents es =
      (specAssign es, lastDirectFrom Option.none es, firstDirectTs es) := by
  unfold deriveEvents specAssign
  rw [deriveStep_foldl es [] Option.none Option.none (Or.inr rfl)]
  simp [optIntTruthy]

/-- C4 counterexample: the replay order is not the stable sort by the
claim's derived timestamps.  On the stream (timestampless, started at 100,
started at 50), the code's first-record patch lifts the leading record to
timestamp 100, so the code replays e2, e0, e1 while the claim's order is
e0, e2, e1. -/
theorem c4_counterexample :
    simReplayOrder simCounterStream =
      [simStartedEv "e2" 50, simPlain "e0", simStartedEv "e1" 100] ∧
    claimReplayOrder simCounterStream =
      [simPlain "e0", simStartedEv "e2" 50, simStartedEv "e1" 100] ∧
    simReplayOrder simCounterStream ≠ claimReplayOrder simCounterStream := by
  refine ⟨by decide, by decide, by decide⟩

/-- C4 amended: the replay order is the stable sort by derived timestamp of
the decoded events after one repair — when the first record's derived
timestamp is zero and some record derived a truthy timestamp, the first
record is lifted to the first such timestamp before sorting.  The replayed
timed list is sorted by timestamp, and replaying (`maxDelay = 0` writes
every record, delays affecting only pacing) emits exactly the decoded
events, reordered. -/
theorem c4_replay_order (es : List SimEvent) :
    simReplayTimed es =
      (if (specAssign es).isEmpty then []
       else (patchFirst (specAssign es)
          (firstDirectTs es)).insertionSort timedLE) ∧
    List.Sorted timedLE (simReplayTimed es) ∧
    (simReplayOrder es).Perm es ∧
    simReplayLines es = (simReplayOrder es).map (fun e => e.line ++ "\n") := by
  have hmain : simReplayTimed es =
      (if (specAssign es).isEmpty then []
       else (patchFirst (specAssign es)
          (firstDirectTs es)).insertionSort timedLE) := by
    unfold simReplayTimed
    rw [deriveEvents_eq]
  refine ⟨hmain, ?_, ?_, rfl⟩
  · rw [hmain]
    split
    · simp
    · exact List.sorted_insertionSort timedLE _
  · unfold simReplayOrder
    rw [hmain]
    split
    · rename_i hemp
      have hes : es = [] := by
        have hfst := specAssignAux_map_fst es Option.none
        rw [List.isEmpty_iff] at hemp
        unfold specAssign at hemp
        rw [hemp] at hfst
        simpa using hfst.symm
      simp [hes]
    · have hperm := List.perm_insertionSort timedLE
        (patchFirst (specAssign es) (firstDirectTs es))
      have hmap := hperm.map Prod.fst
      rw [patchFirst_map_fst] at hmap
      unfold specAssign at hmap
      rw [specAssignAux_map_fst] at hmap
      exact hmap

/-! ## C5: the length-prefixed binary reading loop -/

/-- The varint encoding is never empty. -/
theorem encodeVarint_ne_nil (n : Nat) : encodeVarint n ≠ [] := by
  rw [encodeVarint]
  split <;> simp

/-- Length bound of the varint encoding. -/
theorem encodeVarint_length_le :
    ∀ (k : Nat), 1 ≤ k → ∀ n : Nat, n < 2 ^ (7 * k) →
      (encodeVarint n).length ≤ k := by
  intro k
  induction k with
  | zero => intro h; omega
  | succ k ih =>
      intro _ n hn
      rw [encodeVarint]
      split
      · simp
      · rename_i hge
        simp only [List.length_cons]
        rcases Nat.eq_zero_or_pos k with hk0 | hkpos
        · subst hk0
          norm_num at hn
          omega
        · have hdiv : n / 128 < 2 ^ (7 * k) := by
            rw [Nat.div_lt_iff_lt_mul (by norm_num : 0 < 128)]
            have hpow : (2 : Nat) ^ (7 * (k + 1)) = 2 ^ (7 * k) * 128 := by
              rw [Nat.mul_succ, pow_add]
              norm_num
            omega
          have := ih hkpos (n / 128) hdiv
          omega

/-- Reading back an encoded varint with enough fuel yields the value. -/
theorem readVarintAux_encode :
    ∀ (n : Nat), ∀ (rest : List Nat) (fuel shift acc : Nat),
      (encodeVarint n).length ≤ fuel →
      acc + n * 2 ^ shift < 2 ^ 32 →
      readVarintAux (encodeVarint n ++ rest) fuel shift acc =
        some (acc + n * 2 ^ shift, rest) := by
  intro n
  induction n using Nat.strong_induction_on with
  | _ n ih =>
    intro rest fuel shift acc hfuel hbound
    rw [encodeVarint] at hfuel ⊢
    by_cases hlt : n < 128
    · rw [if_pos hlt] at hfuel ⊢
      simp only [List.length_cons, List.length_nil] at hfuel
      cases fuel with
      | zero => omega
      | succ f =>
          simp only [List.singleton_append, readVarintAux]
          rw [Nat.mod_eq_of_lt hlt, if_pos hlt, Nat.mod_eq_of_lt hbound]
          simp
    · rw [if_neg hlt] at hfuel ⊢
      simp only [List.length_cons] at hfuel
      cases fuel with
      | zero => omega
      | succ f =>
          simp only [List.cons_append, readVarintAux]
          have hb : ¬ (n % 128 + 128 < 128) := by omega
          rw [if_neg hb]
          have hmod : (n % 128 + 128) % 128 = n % 128 := by omega
          rw [hmod]
          have key : acc + n % 128 * 2 ^ shift + n / 128 * 2 ^ (shift + 7) =
              acc + n * 2 ^ shift := by
            have h1 : (2 : Nat) ^ (shift + 7) = 2 ^ shift * 128 := by
              rw [pow_add]
              norm_num
            have h2 : n % 128 + 128 * (n / 128) = n := Nat.mod_add_div n 128
            calc acc + n % 128 * 2 ^ shift + n / 128 * 2 ^ (shift + 7)
                = acc + (n % 128 + 128 * (n / 128)) * 2 ^ shift := by
                  rw [h1]; ring
              _ = acc + n * 2 ^ shift := by rw [h2]
          have hrec := ih (n / 128) (Nat.div_lt_self (by omega) (by omega))
            rest f (shift + 7) (acc + n % 128 * 2 ^ shift) (by omega)
            (by omega)
          simp only [List.append_eq]
          rw [hrec, key]

/-- Reading a framed varint below 2^32 recovers exactly the length and the
remaining buffer. -/
theorem readVarint_frame (n : Nat) (rest : List Nat) (h : n < 2 ^ 32) :
    readVarint (encodeVarint n ++ rest) = some (n, rest) := by
  have hlen : (encodeVarint n).length ≤ 5 :=
    encodeVarint_length_le 5 (by norm_num) n
      (lt_of_lt_of_le h (by norm_num))
  have hread := readVarintAux_encode n rest 5 0 0 hlen (by simpa using h)
  simpa [readVarint] using hread

/-- The protobuf loop on a framed record list: the accumulated state folds
exactly the maximal decodable prefix, and the error flag is set exactly when
some record fails to decode. -/
theorem pbLoop_frames (decode : List Nat → Option SimEvent) :
    ∀ (msgs : List (List Nat)) (st : SimAccState),
      (∀ m ∈ msgs, m.length < 2 ^ 32) →
      pbLoop decode (pbFrames msgs) st =
        ((((msgs.map decode).takeWhile Option.isSome).filterMap id).foldl
            deriveStep st,
         !((msgs.map decode).all Option.isSome)) := by
  intro msgs
  induction msgs with
  | nil =>
      intro st _
      simp [pbFrames, pbLoop]
  | cons m rest ih =>
      intro st hlen
      have hm : m.length < 2 ^ 32 := hlen m (by simp)
      have hframes : pbFrames (m :: rest) =
          encodeVarint m.length ++ (m ++ pbFrames rest) := by
        simp [pbFrames]
      have hv : readVarint (encodeVarint m.length ++ (m ++ pbFrames rest)) =
          some (m.length, m ++ pbFrames rest) := readVarint_frame _ _ hm
      obtain ⟨b, bs, hbe⟩ : ∃ b bs,
          encodeVarint m.length ++ (m ++ pbFrames rest) = b :: bs := by
        cases henc : encodeVarint m.length with
        | nil => exact absurd henc (encodeVarint_ne_nil _)
        | cons b bs => exact ⟨b, bs ++ (m ++ pbFrames rest), by simp [henc]⟩
      rw [hframes, hbe]
      rw [hbe] at hv
      rw [pbLoop]
      split
      · rename_i heq
        rw [hv] at heq
        cases heq
      · rename_i len rest' heq
        rw [hv] at heq
        simp only [Option.some.injEq, Prod.mk.injEq] at heq
        obtain ⟨hlen', hrest'⟩ := heq
        subst hlen' hrest'
        rw [List.take_left, List.drop_left]
        cases hdec : decode m with
        | none =>
            simp [hdec]
        | some ev =>
            simp only [hdec]
            rw [ih (deriveStep st ev) (fun m' hm' => hlen m' (by simp [hm']))]
            simp [hdec]

/-- C5: in length-prefixed binary mode a record that fails to decode is
fatal for the remaining stream — the accumulated state is the fold of
exactly the maximal prefix of records that decode, so nothing at or after
the failure point is ingested while every event decoded before it is kept,
and the stream-level error flag is raised exactly when some record fails to
decode. -/
theorem c5_pb_decode_fatal (decode : List Nat → Option SimEvent)
    (msgs : List (List Nat)) (hlen : ∀ m ∈ msgs, m.length < 2 ^ 32) :
    pbDerive decode (pbFrames msgs) =
      ((((msgs.map decode).takeWhile Option.isSome).filterMap id).foldl
          deriveStep ([], Option.none, Option.none),
       !((msgs.map decode).all Option.isSome)) := by
  unfold pbDerive
  exact pbLoop_frames decode msgs ([], Option.none, Option.none) hlen

/-- Witness for C5 on a concrete three-record stream whose middle record
fails to decode. -/
theorem c5_pb_decode_fatal_witness :
    (∀ m ∈ pbMsgsFix, m.length < 2 ^ 32) ∧
    pbDerive pbDecodeFix (pbFrames pbMsgsFix) =
      ((((pbMsgsFix.map pbDecodeFix).takeWhile Option.isSome).filterMap
          id).foldl deriveStep ([], Option.none, Option.none),
       !((pbMsgsFix.map pbDecodeFix).all Option.isSome)) :=
  ⟨by decide, c5_pb_decode_fatal pbDecodeFix pbMsgsFix (by decide)⟩

/-! ## C6: parseProgress and the last frame -/

/-- A list is a Boolean prefix of itself followed by anything. -/
theorem isPrefixOf_append_self (l t : List Char) :
    l.isPrefixOf (l ++ t) = true := by
  induction l with
  | nil => simp [List.isPrefixOf]
  | cons a l ih => simp [List.isPrefixOf, ih]

/-- A Boolean prefix is recovered by `take`. -/
theorem isPrefixOf_imp_take (l₁ : List Char) :
    ∀ l₂ : List Char, l₁.isPrefixOf l₂ = true → l₂.take l₁.length = l₁ := by
  induction l₁ with
  | nil => intro l₂ _; simp
  | cons a t ih =>
      intro l₂ h
      cases l₂ with
      | nil => simp [List.isPrefixOf] at h
      | cons b bs =>
          simp only [List.isPrefixOf, Bool.and_eq_true, beq_iff_eq] at h
          obtain ⟨hab, ht⟩ := h
          simp only [List.length_cons, List.take_succ_cons]
          rw [ih bs ht, hab]

/-- `take` distributes over append. -/
theorem take_append_sub (l₁ l₂ : List Char) :
    ∀ n : Nat, (l₁ ++ l₂).take n = l₁.take n ++ l₂.take (n - l₁.length) := by
  induction l₁ with
  | nil => intro n; simp
  | cons a t ih =>
      intro n
      cases n with
      | zero => simp
      | succ n =>
          simp only [List.cons_append, List.take_succ_cons, List.length_cons,
            Nat.succ_sub_succ]
          rw [ih n]

/-- `drop` distributes over append. -/
theorem drop_append_sub (l₁ l₂ : List Char) :
    ∀ n : Nat, (l₁ ++ l₂).drop n = l₁.drop n ++ l₂.drop (n - l₁.length) := by
  induction l₁ with
  | nil => intro n; simp
  | cons a t ih =>
      intro n
      cases n with
      | zero => simp
      | succ n =>
          simp only [List.cons_append, List.drop_succ_cons, List.length_cons,
            Nat.succ_sub_succ]
          rw [ih n]

/-- `take` of at least the whole list is the list. -/
theorem take_of_length_le (l : List Char) :
    ∀ n : Nat, l.length ≤ n → l.take n = l := by
  induction l with
  | nil => intro n _; simp
  | cons a t ih =>
      intro n hn
      cases n with
      | zero => simp at hn
      | succ n =>
          simp only [List.take_succ_cons]
          rw [ih n (by simpa using hn)]

/-- `getLast?` through a `cons` keeps a known last element. -/
theorem getLast?_cons_some (a : List Char) (l : List (List Char))
    (y : List Char) (h : l.getLast? = some y) :
    (a :: l).getLast? = some y := by
  cases l with
  | nil => simp at h
  | cons b t => rw [List.getLast?_cons_cons]; exact h

/-- When the separator occurs nowhere, the scan returns a single block. -/
theorem splitSubAux_noSub (sep : List Char) :
    ∀ (cs cur : List Char) (fuel : Nat),
      listHasSub sep cs = false →
      splitSubAux sep cs cur fuel = [cur.reverse ++ cs] := by
  intro cs
  induction cs with
  | nil =>
      intro cur fuel _
      cases fuel with
      | zero => simp [splitSubAux]
      | succ f => simp [splitSubAux]
  | cons c rest ih =>
      intro cur fuel h
      cases fuel with
      | zero => simp [splitSubAux]
      | succ f =>
          cases hp : List.isPrefixOf sep (c :: rest) with
          | true => rw [listHasSub, hp] at h; simp at h
          | false =>
              rw [listHasSub, hp] at h
              simp only [Bool.false_or] at h
              simp only [splitSubAux, hp, Bool.false_and, if_false]
              rw [ih (c :: cur) f h]
              simp

/-- Scanning any text that ends in a separator followed by a
separator-free tail always produces that tail as the last block, for a
separator that cannot overlap itself. -/
theorem splitSubAux_last (sep ys : List Char) (hne : sep ≠ [])
    (hborder : ∀ j, j < sep.length →
      0 < j → sep.drop j ≠ sep.take (sep.length - j))
    (hsub : listHasSub sep ys = false) :
    ∀ (fuel : Nat) (xs cur : List Char),
      (xs ++ (sep ++ ys)).length ≤ fuel →
      (splitSubAux sep (xs ++ (sep ++ ys)) cur fuel).getLast? = some ys := by
  have hsl : 0 < sep.length := List.length_pos.mpr hne
  have hie : sep.isEmpty = false := by
    cases sep with
    | nil => exact absurd rfl hne
    | cons a l => rfl
  intro fuel
  induction fuel with
  | zero =>
      intro xs cur hlen
      exfalso
      simp only [List.length_append, Nat.le_zero] at hlen
      omega
  | succ fuel ih =>
      intro xs cur hlen
      cases xs with
      | nil =>
          obtain ⟨s0, stl, hs⟩ : ∃ a l, sep = a :: l := by
            cases sep with
            | nil => exact absurd rfl hne
            | cons a l => exact ⟨a, l, rfl⟩
          subst hs
          simp only [List.nil_append, List.cons_append, splitSubAux]
          have hpre : List.isPrefixOf (s0 :: stl) (s0 :: (stl ++ ys)) = true := by
            have := isPrefixOf_append_self (s0 :: stl) ys
            simpa using this
          rw [if_pos (by rw [hpre, hie]; rfl)]
          have hdropv : (s0 :: (stl ++ ys)).drop (s0 :: stl).length = ys := by
            simp [List.drop_left]
          rw [hdropv, splitSubAux_noSub (s0 :: stl) ys [] fuel hsub]
          simp
      | cons x xs' =>
          simp only [List.cons_append, splitSubAux]
          by_cases hpre : List.isPrefixOf sep (x :: (xs' ++ (sep ++ ys))) = true
          · rw [if_pos (by rw [hpre, hie]; rfl)]
            have hxs : sep.length ≤ xs'.length + 1 := by
              by_contra hlt
              push_neg at hlt
              have htake := isPrefixOf_imp_take sep _ hpre
              rw [show x :: (xs' ++ (sep ++ ys)) =
                (x :: xs') ++ (sep ++ ys) from rfl] at htake
              rw [take_append_sub] at htake
              rw [take_of_length_le (x :: xs') sep.length
                (by simp; omega)] at htake
              rw [take_append_sub] at htake
              have h0 : sep.length - (x :: xs').length - sep.length = 0 := by
                omega
              rw [h0] at htake
              simp only [List.take_zero, List.append_nil] at htake
              have hdq : sep.drop (xs'.length + 1) =
                  sep.take (sep.length - (xs'.length + 1)) := by
                conv_lhs => rw [← htake]
                rw [drop_append_sub]
                simp [List.drop_length, List.length_cons]
              exact absurd hdq
                (hborder (xs'.length + 1) (by omega) (by omega))
            have hrem : (x :: (xs' ++ (sep ++ ys))).drop sep.length =
                ((x :: xs').drop sep.length) ++ (sep ++ ys) := by
              rw [show x :: (xs' ++ (sep ++ ys)) =
                (x :: xs') ++ (sep ++ ys) from rfl]
              rw [drop_append_sub]
              have h0 : sep.length - (x :: xs').length = 0 := by
                simp only [List.length_cons]
                omega
              rw [h0]
              simp
            rw [hrem]
            have hrec := ih ((x :: xs').drop sep.length) []
              (by
                simp only [List.length_append, List.length_drop,
                  List.length_cons] at hlen ⊢
                omega)
            exact getLast?_cons_some _ _ _ hrec
          · have hpf : List.isPrefixOf sep (x :: (xs' ++ (sep ++ ys))) =
                false := by
              revert hpre
              cases List.isPrefixOf sep (x :: (xs' ++ (sep ++ ys))) <;> simp
            rw [hpf]
            simp only [Bool.false_and, if_false]
            exact ih xs' (x :: cur)
              (by
                simp only [List.length_append, List.length_cons] at hlen ⊢
                omega)

/-- The last block of the frame split of `t1 ++ frameSep ++ t2` is `t2`,
for a separator-free `t2`. -/
theorem splitSub_last_frame (t1 t2 : String)
    (h2 : listHasSub frameSep.data t2.data = false) :
    ((splitSub (t1 ++ frameSep ++ t2) frameSep).getLast?).getD "" = t2 := by
  have hdata : (t1 ++ frameSep ++ t2).data =
      t1.data ++ (frameSep.data ++ t2.data) := by
    simp [List.append_assoc]
  unfold splitSub
  rw [hdata]
  rw [List.getLast?_map]
  rw [splitSubAux_last frameSep.data t2.data (by decide) (by decide) h2
    (t1.data ++ (frameSep.data ++ t2.data)).length t1.data [] (le_refl _)]
  rfl

/-- A separator-free payload splits into a single frame. -/
theorem splitSub_noSub_self (t : String)
    (h : listHasSub frameSep.data t.data = false) :
    splitSub t frameSep = [t] := by
  unfold splitSub
  rw [splitSubAux_noSub frameSep.data t.data [] t.data.length h]
  rfl

/-- C6: parseProgress splits the payload on the cursor-reposition frame
separator and parses only the last frame — appending any overwritten frame
and a separator in front of a separator-free current frame does not change
the result — the extracted running actions are sorted by elapsed time
descending, and on the concrete two-frame fixture the running actions come
from the second frame only, longest elapsed time first. -/
theorem c6_progress_last_frame (text t1 t2 : String)
    (h2 : listHasSub frameSep.data t2.data = false) :
    parseProgress (t1 ++ frameSep ++ t2) = parseProgress t2 ∧
    List.Sorted runningActionGE (parseProgress text).runningActions ∧
    (parseProgress (c6Frame1 ++ frameSep ++ c6Frame2)).runningActions =
      [⟨"Linking z", "4s"⟩, ⟨"Compiling a.cc", "2s"⟩] := by
  refine ⟨?_, ?_, ?_⟩
  · have hL := splitSub_last_frame t1 t2 h2
    have hR := splitSub_noSub_self t2 h2
    simp only [parseProgress]
    rw [hL, hR]
    simp
  · simp only [parseProgress]
    exact List.sorted_insertionSort runningActionGE _
  · decide

/-- Witness for C6 on the two-frame fixture payload. -/
theorem c6_progress_last_frame_witness :
    listHasSub frameSep.data c6Frame2.data = false ∧
    (parseProgress (c6Frame1 ++ frameSep ++ c6Frame2) =
        parseProgress c6Frame2 ∧
      List.Sorted runningActionGE (parseProgress c6Frame1).runningActions ∧
      (parseProgress (c6Frame1 ++ frameSep ++ c6Frame2)).runningActions =
        [⟨"Linking z", "4s"⟩, ⟨"Compiling a.cc", "2s"⟩]) :=
  ⟨by decide, c6_progress_last_frame c6Frame1 c6Frame1 c6Frame2 (by decide)⟩

/-- Witness for C3 at a concrete state holding the label already. -/
theorem c3_test_summary_upsert_witness :
    (processEvent fsm0 stTS evTestSummary).testSummaries.length =
      stTS.testSummaries.length ∧
    processEvent fsm0 (processEvent fsm0 stTS evTestSummary) evTestSummary =
      processEvent fsm0 stTS evTestSummary :=
  ⟨(c3_test_summary_upsert fsm0 stTS "//pkg:test" tsSample evTestSummary
      rfl rfl).1 (by decide),
   (c3_test_summary_upsert fsm0 stTS "//pkg:test" tsSample evTestSummary
      rfl rfl).2.1⟩

end Bep
